import Mathlib

/-!
A verification development for the scanner and syntax-tree core of a small
Lox-style interpreter front-end (src/main.rs, src/expressions.rs,
src/statement.rs, src/ast.rs).

The source text is modelled at Unicode-scalar granularity as a `List Char`,
matching the Rust code's use of `source.chars()` for cursor arithmetic.
Byte-based slicing (`str::get(a..b)`, which the Rust code mixes with the
char-based cursor) is modelled exactly by `byteSliceGet` over UTF-8 byte
sizes; a failed `Option::unwrap` on such a slice (a Rust panic) is modelled
by propagating `none`.

The numeric literal payload is a pair (mantissa, scale) denoting the exact
decimal value mantissa / 10^scale of the numeral; the Rust code stores the
nearest `f32` instead. Binary floating-point rounding is outside the scope
of this embedding; every rendering fact proved below is evaluated only at
literals where the `f32` rendering and the exact-decimal rendering agree
digit for digit.
-/

namespace LoxScan

/-- Token categories, mirroring `enum TokenType` in src/main.rs. -/
inductive TokenType where
  | LEFT_PAREN | RIGHT_PAREN | LEFT_BRACE | RIGHT_BRACE
  | COMMA | DOT | MINUS | PLUS | SEMICOLON | SLASH | STAR
  | BANG | BANG_EQUAL | EQUAL | EQUAL_EQUAL
  | GREATER | GREATER_EQUAL | LESS | LESS_EQUAL
  | IDENTIFIER | STRING | NUMBER
  | AND | CLASS | ELSE | FALSE | FUN | FOR | IF | NIL | OR
  | PRINT | RETURN | SUPER | THIS | TRUE | VAR | WHILE
  | COMMENT | COMMENT_BLOCK
  | EOF
deriving DecidableEq, Repr

/-- Literal payloads, mirroring `enum Literal` in src/main.rs.  A number
carries its exact decimal value as (mantissa, scale) together with the
recorded rendering precision (the `usize` in `Literal::Number(f32, usize)`). -/
inductive Literal where
  | str (s : List Char)
  | number (value : Nat × Nat) (precision : Nat)
  | null
deriving DecidableEq, Repr

/-- A token record, mirroring `struct Token` in src/main.rs. -/
structure Token where
  token_type : TokenType
  lexeme : List Char
  literal : Literal
  line : Nat
deriving DecidableEq, Repr

/-- Scanner state, mirroring `struct Scanner` in src/main.rs. -/
structure Scanner where
  source : List Char
  tokens : List Token
  start : Nat
  current : Nat
  line : Nat
  has_errors : Bool
deriving Repr

/-- `Scanner::new`. -/
def Scanner.new (source : List Char) : Scanner :=
  { source := source, tokens := [], start := 0, current := 0, line := 1,
    has_errors := false }

/-- `fn is_alpha` (src/main.rs): ASCII letters and underscore. -/
def is_alpha (c : Char) : Bool :=
  decide (('a' ≤ c ∧ c ≤ 'z') ∨ ('A' ≤ c ∧ c ≤ 'Z') ∨ c = '_')

/-- `fn is_digit` (src/main.rs). -/
def is_digit (c : Char) : Bool :=
  decide ('0' ≤ c ∧ c ≤ '9')

/-- `fn is_alpha_numeric` (src/main.rs). -/
def is_alpha_numeric (c : Char) : Bool :=
  is_digit c || is_alpha c

/-- The number of UTF-8 bytes a scalar occupies, as in Rust's
`char::len_utf8`. -/
def utf8SizeC (c : Char) : Nat :=
  if c.toNat < 0x80 then 1
  else if c.toNat < 0x800 then 2
  else if c.toNat < 0x10000 then 3
  else 4

/-- Drop the chars covering the first `n` UTF-8 bytes; `none` when `n` is
not a char boundary or exceeds the total byte length (Rust
`str::get` returning `None`). -/
def dropBytes : List Char → Nat → Option (List Char)
  | cs, 0 => some cs
  | [], _ + 1 => none
  | c :: cs, n + 1 =>
    if utf8SizeC c ≤ n + 1 then dropBytes cs (n + 1 - utf8SizeC c) else none

/-- Take the chars covering the first `n` UTF-8 bytes; `none` when `n` is
not a char boundary or exceeds the total byte length. -/
def takeBytes : List Char → Nat → Option (List Char)
  | _, 0 => some []
  | [], _ + 1 => none
  | c :: cs, n + 1 =>
    if utf8SizeC c ≤ n + 1 then (takeBytes cs (n + 1 - utf8SizeC c)).map (c :: ·)
    else none

/-- Rust `str::get(a..b)`: the chars whose UTF-8 bytes span `[a, b)`, when
`a ≤ b`, both are char boundaries, and `b` is within the string. -/
def byteSliceGet (cs : List Char) (a b : Nat) : Option (List Char) :=
  if a ≤ b then (dropBytes cs a).bind (fun t => takeBytes t (b - a)) else none

/-- `Scanner::is_at_end`: `current >= source.chars().count()`. -/
def Scanner.is_at_end (sc : Scanner) : Bool :=
  decide (sc.source.length ≤ sc.current)

/-- `Scanner::peek`: the char at `current`, or NUL at/after the end. -/
def Scanner.peek (sc : Scanner) : Char :=
  if sc.is_at_end then '\x00' else (sc.source.get? sc.current).getD '\x00'

/-- `Scanner::peek_next`: the char at `current + 1`, or NUL. -/
def Scanner.peek_next (sc : Scanner) : Char :=
  if sc.source.length ≤ sc.current + 1 then '\x00'
  else (sc.source.get? (sc.current + 1)).getD '\x00'

/-- `Scanner::advance`: return the char at `current` and move past it. -/
def Scanner.advance (sc : Scanner) : Char × Scanner :=
  (sc.peek, { sc with current := sc.current + 1 })

/-- `Scanner::match_next`: conditional one-char advance. -/
def Scanner.match_next (sc : Scanner) (expected : Char) : Bool × Scanner :=
  if sc.is_at_end then (false, sc)
  else if sc.peek ≠ expected then (false, sc)
  else (true, { sc with current := sc.current + 1 })

/-- `Scanner::get_lexeme`: `source.get(start..current)` — a byte slice with
char-counted indices; `none` models the `.unwrap()` panic. -/
def Scanner.get_lexeme (sc : Scanner) : Option (List Char) :=
  byteSliceGet sc.source sc.start sc.current

/-- `Scanner::add_token`: append a token whose lexeme is the current byte
slice `start..current`; `none` models the `.unwrap()` panic. -/
def Scanner.add_token (sc : Scanner) (tt : TokenType) (lit : Literal) :
    Option Scanner :=
  (sc.get_lexeme).map fun lx =>
    { sc with tokens := sc.tokens ++ [⟨tt, lx, lit, sc.line⟩] }

/-- `Scanner::fmt_error`: record that a lexical error occurred (the
diagnostic text itself goes to stderr and is not modelled). -/
def Scanner.fmt_error (sc : Scanner) : Scanner :=
  { sc with has_errors := true }

/-- At or beyond the end of the source, `peek` yields NUL. -/
theorem Scanner.peek_eq_nul (sc : Scanner) (h : sc.source.length ≤ sc.current) :
    sc.peek = '\x00' := by
  simp [Scanner.peek, Scanner.is_at_end, h]

/-- A non-NUL `peek` means the cursor is strictly inside the source. -/
theorem Scanner.lt_of_peek_ne_nul (sc : Scanner) (h : sc.peek ≠ '\x00') :
    sc.current < sc.source.length := by
  by_contra hc
  exact h (sc.peek_eq_nul (Nat.le_of_not_lt hc))

/-- The `while` loop of `Scanner::handle_string`: consume until a closing
quote or end of input, counting newlines. -/
def string_loop (sc : Scanner) : Scanner :=
  if h : ¬ (sc.peek = '"') ∧ ¬ sc.is_at_end then
    string_loop { sc with
      line := if sc.peek = '\n' then sc.line + 1 else sc.line,
      current := sc.current + 1 }
  else sc
termination_by sc.source.length - sc.current
decreasing_by
  have h2 := h.2
  simp only [Scanner.is_at_end, decide_eq_true_eq] at h2
  omega

/-- The `while` loop of the `//` line-comment branch of
`Scanner::scan_token`: consume until a newline or end of input. -/
def line_comment_loop (sc : Scanner) : Scanner :=
  if h : ¬ (sc.peek = '\n') ∧ ¬ sc.is_at_end then
    line_comment_loop { sc with current := sc.current + 1 }
  else sc
termination_by sc.source.length - sc.current
decreasing_by
  have h2 := h.2
  simp only [Scanner.is_at_end, decide_eq_true_eq] at h2
  omega

/-- The `while` loop of the `/*` block-comment branch of
`Scanner::scan_token`: consume until `*/` or end of input, counting
newlines. -/
def block_loop (sc : Scanner) : Scanner :=
  if h : ¬ (sc.peek = '*' ∧ sc.peek_next = '/') ∧ ¬ sc.is_at_end then
    block_loop { sc with
      line := if sc.peek = '\n' then sc.line + 1 else sc.line,
      current := sc.current + 1 }
  else sc
termination_by sc.source.length - sc.current
decreasing_by
  have h2 := h.2
  simp only [Scanner.is_at_end, decide_eq_true_eq] at h2
  omega

/-- The first `while` loop of `Scanner::handle_number`: consume a run of
digits. -/
def skip_digits (sc : Scanner) : Scanner :=
  if h : is_digit sc.peek then
    skip_digits { sc with current := sc.current + 1 }
  else sc
termination_by sc.source.length - sc.current
decreasing_by
  have hlt : sc.current < sc.source.length := by
    refine sc.lt_of_peek_ne_nul fun hn => ?_
    rw [hn] at h
    exact absurd h (by decide)
  omega

/-- The fractional-digit `while` loop of `Scanner::handle_number`,
threading the `precision` counter and the `only_zero_decimals` flag. -/
def scan_frac (sc : Scanner) (precision : Nat) (onlyZero : Bool) :
    Scanner × Nat × Bool :=
  if h : is_digit sc.peek then
    scan_frac { sc with current := sc.current + 1 } (precision + 1)
      (onlyZero && decide (sc.peek = '0'))
  else (sc, precision, onlyZero)
termination_by sc.source.length - sc.current
decreasing_by
  have hlt : sc.current < sc.source.length := by
    refine sc.lt_of_peek_ne_nul fun hn => ?_
    rw [hn] at h
    exact absurd h (by decide)
  omega

/-- The `while` loop of `Scanner::handle_identifier`: consume a run of
alphanumeric-or-underscore chars. -/
def ident_loop (sc : Scanner) : Scanner :=
  if h : is_alpha_numeric sc.peek then
    ident_loop { sc with current := sc.current + 1 }
  else sc
termination_by sc.source.length - sc.current
decreasing_by
  have hlt : sc.current < sc.source.length := by
    refine sc.lt_of_peek_ne_nul fun hn => ?_
    rw [hn] at h
    exact absurd h (by decide)
  omega

/-- `Scanner::handle_string`. -/
def handle_string (sc : Scanner) : Option Scanner :=
  let sc := string_loop sc
  if sc.is_at_end then some sc.fmt_error
  else
    let sc := { sc with current := sc.current + 1 }
    match byteSliceGet sc.source (sc.start + 1) (sc.current - 1) with
    | none => none
    | some lit => sc.add_token .STRING (.str lit)

/-- The keyword table of `Scanner::handle_identifier`. -/
def keyword_type (l : List Char) : TokenType :=
  if l = "and".data then .AND
  else if l = "class".data then .CLASS
  else if l = "else".data then .ELSE
  else if l = "false".data then .FALSE
  else if l = "fun".data then .FUN
  else if l = "for".data then .FOR
  else if l = "if".data then .IF
  else if l = "nil".data then .NIL
  else if l = "or".data then .OR
  else if l = "print".data then .PRINT
  else if l = "return".data then .RETURN
  else if l = "super".data then .SUPER
  else if l = "this".data then .THIS
  else if l = "true".data then .TRUE
  else if l = "var".data then .VAR
  else if l = "while".data then .WHILE
  else .IDENTIFIER

/-- `Scanner::handle_identifier`. -/
def handle_identifier (sc : Scanner) : Option Scanner :=
  let sc := ident_loop sc
  match sc.get_lexeme with
  | none => none
  | some ident => sc.add_token (keyword_type ident) .null

/-- The numeric value of a digit string. -/
def digitsToNat (cs : List Char) : Nat :=
  cs.foldl (fun a c => a * 10 + (c.toNat - '0'.toNat)) 0

/-- Rust `str::parse::<f32>` on a scanner lexeme, modelled exactly on its
Ok/Err outcome and idealized to the exact decimal value (mantissa, scale)
instead of the nearest binary float: digit strings with an optional
fractional part parse successfully, everything else fails. -/
def parseDecimal (cs : List Char) : Option (Nat × Nat) :=
  let ip := cs.takeWhile is_digit
  let rest := cs.dropWhile is_digit
  if ip = [] then none
  else
    match rest with
    | [] => some (digitsToNat ip, 0)
    | '.' :: fs =>
      if fs.all is_digit then
        some (digitsToNat ip * 10 ^ fs.length + digitsToNat fs, fs.length)
      else none
    | _ => none

/-- `Scanner::handle_number`. -/
def handle_number (sc : Scanner) : Option Scanner :=
  let sc := skip_digits sc
  let (sc, precision) :=
    if sc.peek = '.' ∧ is_digit sc.peek_next then
      let sc := { sc with current := sc.current + 1 }
      let (sc, p, z) := scan_frac sc 0 true
      (sc, if z then 1 else p)
    else (sc, 0)
  match sc.get_lexeme with
  | none => none
  | some lx =>
    match parseDecimal lx with
    | none => some sc.fmt_error
    | some v =>
      let precision := if precision = 0 then precision + 1 else precision
      sc.add_token .NUMBER (.number v precision)

/-- `Scanner::scan_token`: consume one char and dispatch, mirroring the
`match` in src/main.rs arm for arm. -/
def scan_token (sc : Scanner) : Option Scanner :=
  let c := sc.peek
  let sc := { sc with current := sc.current + 1 }
  if c = '(' then sc.add_token .LEFT_PAREN .null
  else if c = ')' then sc.add_token .RIGHT_PAREN .null
  else if c = '\x7b' then sc.add_token .LEFT_BRACE .null
  else if c = '\x7d' then sc.add_token .RIGHT_BRACE .null
  else if c = ',' then sc.add_token .COMMA .null
  else if c = '.' then sc.add_token .DOT .null
  else if c = '-' then sc.add_token .MINUS .null
  else if c = '+' then sc.add_token .PLUS .null
  else if c = ';' then sc.add_token .SEMICOLON .null
  else if c = '*' then sc.add_token .STAR .null
  else if c = '!' then
    let (m, sc) := sc.match_next '='
    sc.add_token (if m then .BANG_EQUAL else .BANG) .null
  else if c = '=' then
    let (m, sc) := sc.match_next '='
    sc.add_token (if m then .EQUAL_EQUAL else .EQUAL) .null
  else if c = '>' then
    let (m, sc) := sc.match_next '='
    sc.add_token (if m then .GREATER_EQUAL else .GREATER) .null
  else if c = '<' then
    let (m, sc) := sc.match_next '='
    sc.add_token (if m then .LESS_EQUAL else .LESS) .null
  else if c = '/' then
    let (m1, sc1) := sc.match_next '/'
    if m1 then
      let sc2 := line_comment_loop sc1
      match byteSliceGet sc2.source (sc2.start + 2) sc2.current with
      | none => none
      | some comment => sc2.add_token .COMMENT (.str comment)
    else
      let (m2, sc2) := sc1.match_next '*'
      if m2 then
        let sc3 := { block_loop sc2 with
                     current := (block_loop sc2).current + 2 }
        match byteSliceGet sc3.source (sc3.start + 2) (sc3.current - 2) with
        | none => none
        | some comment => sc3.add_token .COMMENT_BLOCK (.str comment)
      else sc2.add_token .SLASH .null
  else if c = '"' then handle_string sc
  else if c = '\n' then some { sc with line := sc.line + 1 }
  else if c = ' ' ∨ c = '\r' ∨ c = '\t' then some sc
  else if is_digit c then handle_number sc
  else if is_alpha_numeric c then handle_identifier sc
  else some sc.fmt_error

/-- The `while !self.is_at_end()` loop of `Scanner::scan_tokens`, with a
fuel bound.  `scan_token` always advances `current` by at least one, so
`source.length + 1` units of fuel always suffice; running out of fuel
(`none`) would correspond to a non-advancing infinite loop, which cannot
occur. -/
def scan_loop (fuel : Nat) (sc : Scanner) : Option Scanner :=
  if sc.is_at_end then some sc
  else if fuel = 0 then none
  else
    match scan_token { sc with start := sc.current } with
    | none => none
    | some sc' => scan_loop (fuel - 1) sc'
termination_by fuel
decreasing_by omega

/-- `Scanner::scan_tokens`: run the scan to completion and append the
end-of-input token.  The result is the token sequence together with the
error flag (`has_errors`); the `print_tokens`/`exit(65)` side effects are
CLI plumbing outside the scanner's data contract.  `none` models a panic
during the scan. -/
def scan_tokens (source : List Char) : Option (List Token × Bool) :=
  (scan_loop (source.length + 1) (Scanner.new source)).map fun sc =>
    (sc.tokens ++ [⟨.EOF, [], .null, sc.line⟩], sc.has_errors)

/-- Round `m / d` to the nearest integer, ties to even, as Rust's float
formatting does. -/
def roundHalfEven (m d : Nat) : Nat :=
  let q := m / d
  let r := m % d
  if 2 * r > d ∨ (2 * r = d ∧ q % 2 = 1) then q + 1 else q

/-- The Rust format `{:>.*}` applied to the numeric value (mantissa,
scale) = mantissa / 10^scale with `p` digits after the point (`p = 0`
prints no point at all); the `>` alignment is a no-op without a width. -/
def renderFixed (v : Nat × Nat) (p : Nat) : String :=
  let scaled :=
    if v.2 ≤ p then v.1 * 10 ^ (p - v.2) else roundHalfEven v.1 (10 ^ (v.2 - p))
  if p = 0 then toString scaled
  else
    let fracStr := toString (scaled % 10 ^ p)
    toString (scaled / 10 ^ p) ++ "." ++
      String.mk (List.replicate (p - fracStr.length) '0') ++ fracStr

/-- `impl Display for Literal` (src/main.rs): strings verbatim, numbers
via `{:>.*}` with the recorded precision, `NULL` as "null". -/
def Literal.display : Literal → String
  | .str s => String.mk s
  | .number v p => renderFixed v p
  | .null => "null"

/-- Expression nodes, mirroring `enum Expr` in src/expressions.rs. -/
inductive Expr where
  | Assign (name : Token) (value : Expr)
  | LiteralExpr (value : Literal)
  | Binary (left : Expr) (operator : Token) (right : Expr)
  | Call (callee : Expr) (paren : Token) (arguments : List Expr)
  | Get (object : Expr) (name : Token)
  | Grouping (expression : Expr)
  | Logical (left : Expr) (right : Expr) (operator : Token)
  | Set (object : Expr) (name : Token) (value : Expr)
  | Super (keyword : Token) (method : Token)
  | This (keyword : Token)
  | Unary (operator : Token) (right : Expr)
  | Variable (name : Token)

/-- The `Visitor<R>` trait of src/expressions.rs: one method per concrete
expression variant. -/
structure ExprVisitor (R : Type) where
  visit_binary_expression : Expr → R
  visit_literal_expression : Expr → R
  visit_assign_expression : Expr → R
  visit_call_expression : Expr → R
  visit_get_expression : Expr → R
  visit_grouping_expression : Expr → R
  visit_logical_expression : Expr → R
  visit_set_expression : Expr → R
  visit_super_expression : Expr → R
  visit_this_expression : Expr → R
  visit_unary_expression : Expr → R
  visit_variable_expression : Expr → R

/-- `Expr::accept` (src/expressions.rs), arm for arm. -/
def Expr.accept {R : Type} (e : Expr) (v : ExprVisitor R) : R :=
  match e with
  | .Binary .. => v.visit_binary_expression e
  | .LiteralExpr .. => v.visit_literal_expression e
  | .Assign .. => v.visit_assign_expression e
  | .Call .. => v.visit_call_expression e
  | .Get .. => v.visit_get_expression e
  | .Grouping .. => v.visit_grouping_expression e
  | .Logical .. => v.visit_logical_expression e
  | .Set .. => v.visit_set_expression e
  | .Super .. => v.visit_super_expression e
  | .This .. => v.visit_this_expression e
  | .Unary .. => v.visit_unary_expression e
  | .Variable .. => v.visit_variable_expression e

/-- Modelled from the spec: "the method corresponding to its own variant" —
the visitor field a node of each variant must dispatch to. -/
def Expr.spec_dispatch {R : Type} (e : Expr) : ExprVisitor R → Expr → R :=
  match e with
  | .Binary .. => ExprVisitor.visit_binary_expression
  | .LiteralExpr .. => ExprVisitor.visit_literal_expression
  | .Assign .. => ExprVisitor.visit_assign_expression
  | .Call .. => ExprVisitor.visit_call_expression
  | .Get .. => ExprVisitor.visit_get_expression
  | .Grouping .. => ExprVisitor.visit_grouping_expression
  | .Logical .. => ExprVisitor.visit_logical_expression
  | .Set .. => ExprVisitor.visit_set_expression
  | .Super .. => ExprVisitor.visit_super_expression
  | .This .. => ExprVisitor.visit_this_expression
  | .Unary .. => ExprVisitor.visit_unary_expression
  | .Variable .. => ExprVisitor.visit_variable_expression

/-- The name of an expression node's variant (spec side, to observe which
visitor method a dispatch reaches). -/
def Expr.variant_name : Expr → String
  | .Binary .. => "binary"
  | .LiteralExpr .. => "literal"
  | .Assign .. => "assign"
  | .Call .. => "call"
  | .Get .. => "get"
  | .Grouping .. => "grouping"
  | .Logical .. => "logical"
  | .Set .. => "set"
  | .Super .. => "super"
  | .This .. => "this"
  | .Unary .. => "unary"
  | .Variable .. => "variable"

/-- A visitor whose every method reports its own identity, to observe
which method `accept` invokes. -/
def exprNameVisitor : ExprVisitor String :=
  { visit_binary_expression := fun _ => "binary"
    visit_literal_expression := fun _ => "literal"
    visit_assign_expression := fun _ => "assign"
    visit_call_expression := fun _ => "call"
    visit_get_expression := fun _ => "get"
    visit_grouping_expression := fun _ => "grouping"
    visit_logical_expression := fun _ => "logical"
    visit_set_expression := fun _ => "set"
    visit_super_expression := fun _ => "super"
    visit_this_expression := fun _ => "this"
    visit_unary_expression := fun _ => "unary"
    visit_variable_expression := fun _ => "variable" }

/-- Statement nodes, mirroring `enum Stmt` in src/statement.rs. -/
inductive Stmt where
  | Print (expression : Expr)
  | Block (statements : List Stmt)
  | Expression (expression : Expr)
  | While (condition : Expr) (body : Stmt)
  | Return (keyword : Token) (value : Expr)
  | Variable (name : Token) (initializer : Expr)
  | If (condition : Expr) (then_branch : Stmt) (else_branch : Stmt)
  | Function (name : Token) (params : List Token) (body : List Stmt)
  | Class (name : Token) (super_class : Expr) (methods : List Stmt)

/-- The `StmtVisitor<R>` trait of src/statement.rs. -/
structure StmtVisitor (R : Type) where
  visit_block_stmt : Stmt → R
  visit_class_stmt : Stmt → R
  visit_expression_stmt : Stmt → R
  visit_function_stmt : Stmt → R
  visit_if_stmt : Stmt → R
  visit_print_stmt : Stmt → R
  visit_return_stmt : Stmt → R
  visit_variable_stmt : Stmt → R
  visit_while_stmt : Stmt → R

/-- `Stmt::accept` (src/statement.rs), arm for arm. -/
def Stmt.accept {R : Type} (s : Stmt) (v : StmtVisitor R) : R :=
  match s with
  | .Print .. => v.visit_print_stmt s
  | .Block .. => v.visit_block_stmt s
  | .Expression .. => v.visit_expression_stmt s
  | .While .. => v.visit_while_stmt s
  | .Return .. => v.visit_return_stmt s
  | .Variable .. => v.visit_variable_stmt s
  | .If .. => v.visit_if_stmt s
  | .Function .. => v.visit_function_stmt s
  | .Class .. => v.visit_class_stmt s

/-- Modelled from the spec: the visitor field a statement node of each
variant must dispatch to. -/
def Stmt.spec_dispatch {R : Type} (s : Stmt) : StmtVisitor R → Stmt → R :=
  match s with
  | .Print .. => StmtVisitor.visit_print_stmt
  | .Block .. => StmtVisitor.visit_block_stmt
  | .Expression .. => StmtVisitor.visit_expression_stmt
  | .While .. => StmtVisitor.visit_while_stmt
  | .Return .. => StmtVisitor.visit_return_stmt
  | .Variable .. => StmtVisitor.visit_variable_stmt
  | .If .. => StmtVisitor.visit_if_stmt
  | .Function .. => StmtVisitor.visit_function_stmt
  | .Class .. => StmtVisitor.visit_class_stmt

/-- The name of a statement node's variant (spec side). -/
def Stmt.variant_name : Stmt → String
  | .Print .. => "print"
  | .Block .. => "block"
  | .Expression .. => "expression"
  | .While .. => "while"
  | .Return .. => "return"
  | .Variable .. => "variable"
  | .If .. => "if"
  | .Function .. => "function"
  | .Class .. => "class"

/-- A statement visitor whose every method reports its own identity. -/
def stmtNameVisitor : StmtVisitor String :=
  { visit_block_stmt := fun _ => "block"
    visit_class_stmt := fun _ => "class"
    visit_expression_stmt := fun _ => "expression"
    visit_function_stmt := fun _ => "function"
    visit_if_stmt := fun _ => "if"
    visit_print_stmt := fun _ => "print"
    visit_return_stmt := fun _ => "return"
    visit_variable_stmt := fun _ => "variable"
    visit_while_stmt := fun _ => "while" }

/-- `AstPrinter::parenthesize` (src/ast.rs), applied to the already
rendered arguments: "(name arg1 arg2 ...)".  A `none` argument (a panic
inside a recursive render) propagates. -/
def parenthesize (name : String) (args : List (Option String)) :
    Option String :=
  (args.foldlM
      (fun (b : String) (a : Option String) => a.map (fun s => b ++ " " ++ s))
      ("(" ++ name)).map
    (· ++ ")")

/-- The `AstPrinter` rendering of src/ast.rs with the visitor dispatch
unfolded: binary/unary parenthesize under the operator lexeme, literals
render via `Display`, grouping under "group", and the remaining variants
render as the empty string (their `String::new()` method bodies).  The
`panic!` arms of the source's `match`es are unreachable because `accept`
only ever hands a node to its own variant's method. -/
def ast_print : Expr → Option String
  | .Binary left op right =>
    parenthesize (String.mk op.lexeme) [ast_print left, ast_print right]
  | .LiteralExpr v => some v.display
  | .Grouping e => parenthesize "group" [ast_print e]
  | .Unary op right => parenthesize (String.mk op.lexeme) [ast_print right]
  | .Assign .. => some ""
  | .Call .. => some ""
  | .Get .. => some ""
  | .Logical .. => some ""
  | .Set .. => some ""
  | .Super .. => some ""
  | .This .. => some ""
  | .Variable .. => some ""

/-- The `impl Visitor<String> for AstPrinter` of src/ast.rs as an explicit
visitor record: each method matches on its node, handling its own variant
and mapping the source's `panic!` arms to `none`. -/
def astPrinterVisitor : ExprVisitor (Option String) :=
  { visit_binary_expression := fun e =>
      match e with
      | .Binary left op right =>
        parenthesize (String.mk op.lexeme) [ast_print left, ast_print right]
      | _ => none
    visit_literal_expression := fun e =>
      match e with
      | .LiteralExpr v => some v.display
      | _ => none
    visit_assign_expression := fun _ => some ""
    visit_call_expression := fun _ => some ""
    visit_get_expression := fun _ => some ""
    visit_grouping_expression := fun e =>
      match e with
      | .Grouping inner => parenthesize "group" [ast_print inner]
      | _ => none
    visit_logical_expression := fun _ => some ""
    visit_set_expression := fun _ => some ""
    visit_super_expression := fun _ => some ""
    visit_this_expression := fun _ => some ""
    visit_unary_expression := fun e =>
      match e with
      | .Unary op right => parenthesize (String.mk op.lexeme) [ast_print right]
      | _ => none
    visit_variable_expression := fun _ => some "" }

/-- The folded renderer agrees with dispatching the source's printer
visitor through `accept`. -/
theorem ast_print_eq_accept (e : Expr) :
    e.accept astPrinterVisitor = ast_print e := by
  cases e <;> rfl

/-- The expression tree of the `book_example` test in src/ast.rs —
`-123 * (45.67)` — parameterized by the precision carried by the `123`
literal (the test itself constructs it with precision 0; the scanner
records precision 1 for the lexeme "123"). -/
def bookTree (p : Nat) : Expr :=
  .Binary
    (.Unary ⟨.MINUS, "-".data, .str "-".data, 1⟩
      (.LiteralExpr (.number (123, 0) p)))
    ⟨.STAR, "*".data, .str "*".data, 1⟩
    (.Grouping (.LiteralExpr (.number (4567, 2) 2)))

unseal string_loop line_comment_loop block_loop skip_digits scan_frac ident_loop scan_loop in
/-- C1: the claim says `scan_tokens` runs to completion without panicking
on every input, including an unterminated block comment and non-ASCII
characters.  The code panics on both: on "/*" the block-comment branch
pushes `current` two places past the end and `get_lexeme`'s
`.unwrap()` fails; on "ü;" the byte-indexed slice `source.get(1..2)` cuts
the two-byte "ü" at a non-boundary and `.unwrap()` fails.  Both runs are
modelled as `none`. -/
theorem C1_scan_panics :
    scan_tokens "/*".data = none ∧ scan_tokens "ü;".data = none := by
  constructor <;> rfl

unseal string_loop line_comment_loop block_loop skip_digits scan_frac ident_loop scan_loop in
/-- C4: the claim says `start ≤ current ≤ length(source)` throughout every
scan (lengths in Unicode scalars).  On the input "/*éé" (an unterminated
block comment whose byte length happens to make both `.unwrap()`s
succeed), the scan completes with `current = 6` while the source has only
4 scalars, because the block-comment branch adds 2 to `current` even when
the loop stopped at end of input. -/
theorem C4_cursor_overshoot :
    (scan_loop ("/*éé".data.length + 1) (Scanner.new "/*éé".data)).map
        (fun sc => (sc.current, sc.source.length)) = some (6, 4) ∧
      4 < 6 := by
  constructor
  · rfl
  · decide

/-- C9: for every expression and statement node and every visitor,
`accept` invokes exactly the visitor method corresponding to the node's
own variant (observed by a visitor whose every method reports its
identity) and returns that method's result unchanged. -/
theorem C9_visitor_dispatch :
    (∀ (R : Type) (v : ExprVisitor R) (e : Expr),
        e.accept v = e.spec_dispatch v e) ∧
      (∀ e : Expr, e.accept exprNameVisitor = e.variant_name) ∧
      (∀ (R : Type) (v : StmtVisitor R) (s : Stmt),
        s.accept v = s.spec_dispatch v s) ∧
      (∀ s : Stmt, s.accept stmtNameVisitor = s.variant_name) := by
  refine ⟨fun R v e => ?_, fun e => ?_, fun R v s => ?_, fun s => ?_⟩
  · cases e <;> rfl
  · cases e <;> rfl
  · cases s <;> rfl
  · cases s <;> rfl

unseal string_loop line_comment_loop block_loop skip_digits scan_frac ident_loop scan_loop in
/-- C8 counterexample: with the precisions the scanner actually records
(precision 1 for the lexeme "123", precision 2 for "45.67"), printing the
`-123 * (45.67)` tree yields "(* (- 123.0) (group 45.67))", not the
claimed "(* (- 123) (group 45.67))": precision 1 forces one decimal
digit, so 123 prints as "123.0". -/
theorem C8_counterexample :
    ast_print (bookTree 1) = some "(* (- 123.0) (group 45.67))" ∧
      (scan_tokens "123".data).map (fun p => p.1.map Token.literal) =
        some [.number (123, 0) 1, .null] ∧
      (scan_tokens "45.67".data).map (fun p => p.1.map Token.literal) =
        some [.number (4567, 2) 2, .null] ∧
      ("(* (- 123.0) (group 45.67))" : String) ≠
        "(* (- 123) (group 45.67))" := by
  refine ⟨rfl, rfl, rfl, ?_⟩
  decide

/-- C8 amended: with the scanner-recorded precisions (1 for 123, 2 for
45.67) the printer produces "(* (- 123.0) (group 45.67))"; the string
"(* (- 123) (group 45.67))" of the src/ast.rs `book_example` test arises
because the test constructs the 123 literal with precision 0, not the
scanner's 1. -/
theorem C8_amended :
    ast_print (bookTree 1) = some "(* (- 123.0) (group 45.67))" ∧
      ast_print (bookTree 0) = some "(* (- 123) (group 45.67))" := by
  constructor <;> rfl

/-- A single-byte (ASCII) scalar. -/
theorem utf8SizeC_eq_one {c : Char} (h : c.toNat < 128) : utf8SizeC c = 1 := by
  simp [utf8SizeC, h]

/-- On an ASCII prefix, byte positions coincide with char positions:
`dropBytes` drops chars. -/
theorem dropBytes_ascii :
    ∀ (cs : List Char) (n : Nat), (∀ c ∈ cs.take n, c.toNat < 128) →
      dropBytes cs n = if n ≤ cs.length then some (cs.drop n) else none := by
  intro cs
  induction cs with
  | nil =>
    intro n _
    cases n with
    | zero => simp [dropBytes]
    | succ m => simp [dropBytes]
  | cons c cs ih =>
    intro n hasc
    cases n with
    | zero => simp [dropBytes]
    | succ m =>
      have hc : c.toNat < 128 := hasc c (by simp [List.take_succ_cons])
      have hm : ∀ d ∈ cs.take m, d.toNat < 128 := fun d hd =>
        hasc d (by simp [List.take_succ_cons]; exact Or.inr hd)
      have h1 : utf8SizeC c = 1 := utf8SizeC_eq_one hc
      simp only [dropBytes, h1]
      rw [if_pos (by omega)]
      have : m + 1 - 1 = m := by omega
      rw [this, ih m hm]
      by_cases hle : m ≤ cs.length
      · rw [if_pos hle, if_pos (by simp; omega)]
        simp
      · rw [if_neg hle, if_neg (by simp; omega)]

/-- On an ASCII prefix, `takeBytes` takes chars. -/
theorem takeBytes_ascii :
    ∀ (cs : List Char) (n : Nat), (∀ c ∈ cs.take n, c.toNat < 128) →
      takeBytes cs n = if n ≤ cs.length then some (cs.take n) else none := by
  intro cs
  induction cs with
  | nil =>
    intro n _
    cases n with
    | zero => simp [takeBytes]
    | succ m => simp [takeBytes]
  | cons c cs ih =>
    intro n hasc
    cases n with
    | zero => simp [takeBytes]
    | succ m =>
      have hc : c.toNat < 128 := hasc c (by simp [List.take_succ_cons])
      have hm : ∀ d ∈ cs.take m, d.toNat < 128 := fun d hd =>
        hasc d (by simp [List.take_succ_cons]; exact Or.inr hd)
      have h1 : utf8SizeC c = 1 := utf8SizeC_eq_one hc
      simp only [takeBytes, h1]
      rw [if_pos (by omega)]
      have : m + 1 - 1 = m := by omega
      rw [this, ih m hm]
      by_cases hle : m ≤ cs.length
      · rw [if_pos hle, if_pos (by simp; omega)]
        simp [List.take_succ_cons]
      · rw [if_neg hle, if_neg (by simp; omega)]
        rfl

/-- Over an ASCII region, the Rust byte slice `get(a..b)` is exactly the
char slice: `b - a` chars starting at char position `a`. -/
theorem byteSliceGet_ascii (cs : List Char) (a b : Nat)
    (hasc : ∀ c ∈ cs.take b, c.toNat < 128) (hab : a ≤ b) (hb : b ≤ cs.length) :
    byteSliceGet cs a b = some ((cs.drop a).take (b - a)) := by
  have hasca : ∀ c ∈ cs.take a, c.toNat < 128 := fun c hc => by
    have hmin : cs.take a = (cs.take b).take a := by
      rw [List.take_take, Nat.min_eq_left hab]
    rw [hmin] at hc
    exact hasc c (List.mem_of_mem_take hc)
  unfold byteSliceGet
  rw [if_pos hab, dropBytes_ascii cs a hasca, if_pos (le_trans hab hb)]
  simp only [Option.some_bind]
  have hdrop : ∀ c ∈ (cs.drop a).take (b - a), c.toNat < 128 := by
    intro c hc
    rw [← List.drop_take b a cs] at hc
    exact hasc c (List.drop_subset a (cs.take b) hc)
  rw [takeBytes_ascii (cs.drop a) (b - a) hdrop,
    if_pos (by rw [List.length_drop]; omega)]

/-- `peek` in terms of the optional indexing primitive. -/
theorem Scanner.peek_eq_getD (sc : Scanner) :
    sc.peek = (sc.source.get? sc.current).getD '\x00' := by
  unfold Scanner.peek Scanner.is_at_end
  by_cases h : sc.source.length ≤ sc.current
  · rw [if_pos (by simpa using h), List.get?_eq_none.mpr h]
    rfl
  · rw [if_neg (by simpa using h)]

/-- `peek` reads the head of the unconsumed remainder of the source. -/
theorem Scanner.peek_of_drop {sc : Scanner} {c : Char} {t : List Char}
    (h : sc.source.drop sc.current = c :: t) : sc.peek = c := by
  rw [Scanner.peek_eq_getD, List.get?_eq_getElem?, ← List.head?_drop, h]
  rfl

/-- `peek_next` reads the second char of the unconsumed remainder. -/
theorem Scanner.peek_next_of_drop {sc : Scanner} {c d : Char} {t : List Char}
    (h : sc.source.drop sc.current = c :: d :: t) : sc.peek_next = d := by
  have h1 : sc.source.drop (sc.current + 1) = d :: t := by
    rw [← List.tail_drop, h]
    rfl
  have hlt : sc.current + 1 < sc.source.length := by
    by_contra hc
    rw [List.drop_of_length_le (Nat.le_of_not_lt hc)] at h1
    exact absurd h1 (by simp)
  unfold Scanner.peek_next
  rw [if_neg (by omega), List.get?_eq_getElem?, ← List.head?_drop, h1]
  rfl

/-- An unconsumed remainder means the scan is not at the end. -/
theorem Scanner.not_at_end_of_drop {sc : Scanner} {c : Char} {t : List Char}
    (h : sc.source.drop sc.current = c :: t) : sc.is_at_end = false := by
  have hlt : sc.current < sc.source.length := by
    by_contra hc
    rw [List.drop_of_length_le (Nat.le_of_not_lt hc)] at h
    exact absurd h (by simp)
  simp [Scanner.is_at_end]
  omega

/-- At the end of the source the remainder is empty. -/
theorem Scanner.drop_of_at_end {sc : Scanner} (h : sc.is_at_end = true) :
    sc.source.drop sc.current = [] := by
  simp only [Scanner.is_at_end, decide_eq_true_eq] at h
  exact List.drop_of_length_le h

/-- Closed form of `skip_digits`: consume exactly the leading digit run of
the remainder. -/
theorem skip_digits_spec (sc : Scanner) :
    skip_digits sc =
      { sc with current :=
          sc.current + ((sc.source.drop sc.current).takeWhile is_digit).length } := by
  induction sc using skip_digits.induct with
  | case1 sc h ih =>
    have hne : sc.peek ≠ '\x00' := fun hn => by rw [hn] at h; exact absurd h (by decide)
    have hlt : sc.current < sc.source.length := sc.lt_of_peek_ne_nul hne
    have hdrop := List.drop_eq_getElem_cons hlt
    have hpk : sc.peek = sc.source[sc.current] := Scanner.peek_of_drop hdrop
    rw [skip_digits, dif_pos h, ih]
    rw [hdrop, List.takeWhile_cons, ← hpk, if_pos h]
    simp only [List.length_cons]
    congr 1
    omega
  | case2 sc h =>
    rw [skip_digits, dif_neg h]
    have hz : ((sc.source.drop sc.current).takeWhile is_digit).length = 0 := by
      rcases hd : sc.source.drop sc.current with _ | ⟨c, t⟩
      · simp
      · have hpk : sc.peek = c := Scanner.peek_of_drop hd
        rw [List.takeWhile_cons, ← hpk, if_neg h]
        rfl
    rw [hz]
    rfl

/-- Closed form of `ident_loop`: consume exactly the leading
alphanumeric-or-underscore run of the remainder. -/
theorem ident_loop_spec (sc : Scanner) :
    ident_loop sc =
      { sc with current :=
          sc.current +
            ((sc.source.drop sc.current).takeWhile is_alpha_numeric).length } := by
  induction sc using ident_loop.induct with
  | case1 sc h ih =>
    have hne : sc.peek ≠ '\x00' := fun hn => by rw [hn] at h; exact absurd h (by decide)
    have hlt : sc.current < sc.source.length := sc.lt_of_peek_ne_nul hne
    have hdrop := List.drop_eq_getElem_cons hlt
    have hpk : sc.peek = sc.source[sc.current] := Scanner.peek_of_drop hdrop
    rw [ident_loop, dif_pos h, ih]
    rw [hdrop, List.takeWhile_cons, ← hpk, if_pos h]
    simp only [List.length_cons]
    congr 1
    omega
  | case2 sc h =>
    rw [ident_loop, dif_neg h]
    have hz : ((sc.source.drop sc.current).takeWhile is_alpha_numeric).length = 0 := by
      rcases hd : sc.source.drop sc.current with _ | ⟨c, t⟩
      · simp
      · have hpk : sc.peek = c := Scanner.peek_of_drop hd
        rw [List.takeWhile_cons, ← hpk, if_neg h]
        rfl
    rw [hz]
    rfl

/-- Closed form of `line_comment_loop`: consume exactly the leading
newline-free run of the remainder. -/
theorem line_comment_loop_spec (sc : Scanner) :
    line_comment_loop sc =
      { sc with current :=
          sc.current +
            ((sc.source.drop sc.current).takeWhile (· != '\n')).length } := by
  induction sc using line_comment_loop.induct with
  | case1 sc h ih =>
    have hlt : sc.current < sc.source.length := by
      have h2 := h.2
      simp only [Scanner.is_at_end, decide_eq_true_eq] at h2
      omega
    have hdrop := List.drop_eq_getElem_cons hlt
    have hpk : sc.peek = sc.source[sc.current] := Scanner.peek_of_drop hdrop
    rw [line_comment_loop, dif_pos h, ih]
    rw [hdrop, List.takeWhile_cons, if_pos (by simp [← hpk]; exact h.1)]
    simp only [List.length_cons]
    congr 1
    omega
  | case2 sc h =>
    rw [line_comment_loop, dif_neg h]
    have hz : ((sc.source.drop sc.current).takeWhile (· != '\n')).length = 0 := by
      rcases hd : sc.source.drop sc.current with _ | ⟨c, t⟩
      · simp
      · have hpk : sc.peek = c := Scanner.peek_of_drop hd
        have hend : sc.is_at_end = false := Scanner.not_at_end_of_drop hd
        have hc : c = '\n' := by
          by_contra hcc
          exact h ⟨by rw [hpk]; exact hcc, by rw [hend]; simp⟩
        rw [List.takeWhile_cons, if_neg (by simp [hc])]
        rfl
    rw [hz]
    rfl

/-- Two scanner states with equal fields are equal. -/
theorem Scanner.eq_of_fields {a b : Scanner} (h1 : a.source = b.source)
    (h2 : a.tokens = b.tokens) (h3 : a.start = b.start)
    (h4 : a.current = b.current) (h5 : a.line = b.line)
    (h6 : a.has_errors = b.has_errors) : a = b := by
  cases a; cases b; simp_all

/-- Closed form of `string_loop`: consume exactly the leading quote-free
run of the remainder, bumping the line counter once per newline inside
it. -/
theorem string_loop_spec (sc : Scanner) :
    string_loop sc =
      { sc with
        current :=
          sc.current + ((sc.source.drop sc.current).takeWhile (· != '"')).length,
        line :=
          sc.line + ((sc.source.drop sc.current).takeWhile (· != '"')).count '\n' } := by
  induction sc using string_loop.induct with
  | case1 sc h ih =>
    have hlt : sc.current < sc.source.length := by
      have h2 := h.2
      simp only [Scanner.is_at_end, decide_eq_true_eq] at h2
      omega
    obtain ⟨c, t, hd⟩ : ∃ c t, sc.source.drop sc.current = c :: t :=
      ⟨_, _, List.drop_eq_getElem_cons hlt⟩
    have hpk : sc.peek = c := Scanner.peek_of_drop hd
    have ht : sc.source.drop (sc.current + 1) = t := by
      rw [← List.tail_drop, hd]
      rfl
    have hcq : (c != '"') = true := by
      simp only [bne_iff_ne, ne_eq]
      rw [← hpk]
      exact h.1
    simp only [dite_eq_ite] at ih
    rw [string_loop, dif_pos h, ih]
    refine Scanner.eq_of_fields rfl rfl rfl ?_ ?_ rfl
    · simp only [ht, hd, List.takeWhile_cons, hcq, if_true, List.length_cons]
      omega
    · simp only [ht, hd, List.takeWhile_cons, hcq, if_true, List.count_cons]
      by_cases hnl : sc.peek = '\n'
      · simp only [hnl, if_true, ← hpk, hnl, bne_self_eq_false]
        simp [← hpk, hnl]
        omega
      · simp only [if_neg hnl]
        have : ¬ (c = '\n') := by rw [← hpk]; exact hnl
        simp [this]
  | case2 sc h =>
    rw [string_loop, dif_neg h]
    have hz : (sc.source.drop sc.current).takeWhile (· != '"') = [] := by
      rcases hd : sc.source.drop sc.current with _ | ⟨c, t⟩
      · simp
      · have hpk : sc.peek = c := Scanner.peek_of_drop hd
        have hend : sc.is_at_end = false := Scanner.not_at_end_of_drop hd
        have hc : c = '"' := by
          by_contra hcc
          exact h ⟨by rw [hpk]; exact hcc, by rw [hend]; simp⟩
        rw [List.takeWhile_cons, if_neg (by simp [hc])]
    rw [hz]
    simp

/-- Closed form of `scan_frac`: consume the leading digit run of the
remainder, adding its length to `precision` and and-ing `onlyZero` with
"every consumed digit is 0". -/
theorem scan_frac_spec (sc : Scanner) (p : Nat) (z : Bool) :
    scan_frac sc p z =
      ({ sc with current :=
           sc.current + ((sc.source.drop sc.current).takeWhile is_digit).length },
        p + ((sc.source.drop sc.current).takeWhile is_digit).length,
        z && ((sc.source.drop sc.current).takeWhile is_digit).all
          (fun d => decide (d = '0'))) := by
  induction sc, p, z using scan_frac.induct with
  | case1 sc p z h ih =>
    have hne : sc.peek ≠ '\x00' := fun hn => by rw [hn] at h; exact absurd h (by decide)
    have hlt : sc.current < sc.source.length := sc.lt_of_peek_ne_nul hne
    have hdrop := List.drop_eq_getElem_cons hlt
    have hpk : sc.peek = sc.source[sc.current] := Scanner.peek_of_drop hdrop
    rw [scan_frac, dif_pos h, ih]
    rw [hdrop, List.takeWhile_cons, ← hpk, if_pos h]
    simp only [List.length_cons, List.all_cons, List.tail_drop]
    refine congrArg₂ Prod.mk ?_ (congrArg₂ Prod.mk ?_ ?_)
    · congr 1
      omega
    · omega
    · rw [Bool.and_assoc]
  | case2 sc p z h =>
    rw [scan_frac, dif_neg h]
    have hz : (sc.source.drop sc.current).takeWhile is_digit = [] := by
      rcases hd : sc.source.drop sc.current with _ | ⟨c, t⟩
      · simp
      · have hpk : sc.peek = c := Scanner.peek_of_drop hd
        rw [List.takeWhile_cons, ← hpk, if_neg h]
    rw [hz]
    simp

/-- `match_next` succeeds exactly on the expected char before the end. -/
theorem Scanner.match_next_pos {sc : Scanner} {e : Char}
    (h1 : sc.peek = e) (h2 : sc.is_at_end = false) :
    sc.match_next e = (true, { sc with current := sc.current + 1 }) := by
  unfold Scanner.match_next
  rw [h2, h1]
  simp

/-- `match_next` fails on a different char. -/
theorem Scanner.match_next_ne {sc : Scanner} {e : Char}
    (h1 : sc.peek ≠ e) : sc.match_next e = (false, sc) := by
  unfold Scanner.match_next
  by_cases h2 : sc.is_at_end
  · rw [if_pos h2]
  · rw [if_neg h2, if_pos h1]

/-- `match_next` fails at the end of input. -/
theorem Scanner.match_next_at_end {sc : Scanner} {e : Char}
    (h2 : sc.is_at_end = true) : sc.match_next e = (false, sc) := by
  unfold Scanner.match_next
  rw [h2]
  simp

/-- Dispatch: a double quote enters `handle_string`. -/
theorem scan_token_quote {sc : Scanner} (h : sc.peek = '"') :
    scan_token sc = handle_string { sc with current := sc.current + 1 } := by
  simp +decide only [scan_token, h, if_false, if_true]

/-- Dispatch: the ten single-char punctuation arms of `scan_token`. -/
theorem scan_token_simple {sc : Scanner} {c : Char} {tt : TokenType}
    (h : sc.peek = c)
    (htt : (c, tt) ∈ [('(', TokenType.LEFT_PAREN), (')', TokenType.RIGHT_PAREN),
      ('\x7b', TokenType.LEFT_BRACE), ('\x7d', TokenType.RIGHT_BRACE),
      (',', TokenType.COMMA), ('.', TokenType.DOT), ('-', TokenType.MINUS),
      ('+', TokenType.PLUS), (';', TokenType.SEMICOLON), ('*', TokenType.STAR)]) :
    scan_token sc =
      Scanner.add_token { sc with current := sc.current + 1 } tt .null := by
  fin_cases htt <;> simp +decide only [scan_token, h, if_false, if_true]

/-- Dispatch: the four one-or-two-char operator arms of `scan_token`. -/
theorem scan_token_two_op {sc : Scanner} {c : Char} {t1 t2 : TokenType}
    (h : sc.peek = c)
    (htt : (c, t1, t2) ∈ [('!', TokenType.BANG_EQUAL, TokenType.BANG),
      ('=', TokenType.EQUAL_EQUAL, TokenType.EQUAL),
      ('>', TokenType.GREATER_EQUAL, TokenType.GREATER),
      ('<', TokenType.LESS_EQUAL, TokenType.LESS)]) :
    scan_token sc =
      (match ({ sc with current := sc.current + 1 } : Scanner).match_next '=' with
       | (m, sc2) => sc2.add_token (if m then t1 else t2) .null) := by
  fin_cases htt <;> simp +decide only [scan_token, h, if_false, if_true]

/-- Dispatch: a newline increments the line counter and emits nothing. -/
theorem scan_token_newline {sc : Scanner} (h : sc.peek = '\n') :
    scan_token sc =
      some { sc with current := sc.current + 1, line := sc.line + 1 } := by
  simp +decide only [scan_token, h, if_false, if_true]

/-- Dispatch: space, carriage return and tab are skipped. -/
theorem scan_token_ws {sc : Scanner}
    (h : sc.peek = ' ' ∨ sc.peek = '\r' ∨ sc.peek = '\t') :
    scan_token sc = some { sc with current := sc.current + 1 } := by
  rcases h with h | h | h <;> simp +decide only [scan_token, h, if_false, if_true]

/-- Dispatch: a digit enters `handle_number`. -/
theorem scan_token_digit {sc : Scanner} (h : is_digit sc.peek = true) :
    scan_token sc = handle_number { sc with current := sc.current + 1 } := by
  simp only [scan_token]
  repeat rw [if_neg (fun he => by rw [he] at h; exact absurd h (by decide))]
  rw [if_neg (by rintro (he | he | he) <;> (rw [he] at h; exact absurd h (by decide)))]
  rw [if_pos h]

/-- Dispatch: a non-digit alphanumeric-or-underscore enters
`handle_identifier`. -/
theorem scan_token_alpha {sc : Scanner} (hd : is_digit sc.peek = false)
    (h : is_alpha_numeric sc.peek = true) :
    scan_token sc = handle_identifier { sc with current := sc.current + 1 } := by
  simp only [scan_token]
  repeat rw [if_neg (fun he => by rw [he] at h; exact absurd h (by decide))]
  rw [if_neg (by rintro (he | he | he) <;> (rw [he] at h; exact absurd h (by decide)))]
  rw [if_neg (by simp [hd]), if_pos h]

/-- Dispatch: any char matching no rule records an error and emits
nothing. -/
theorem scan_token_error {sc : Scanner}
    (hs : ∀ c ∈ (['(', ')', '\x7b', '\x7d', ',', '.', '-', '+', ';', '*', '!',
      '=', '>', '<', '/', '"', '\n', ' ', '\r', '\t'] : List Char), sc.peek ≠ c)
    (hd : is_digit sc.peek = false) (ha : is_alpha_numeric sc.peek = false) :
    scan_token sc =
      some (Scanner.fmt_error { sc with current := sc.current + 1 }) := by
  simp only [scan_token]
  repeat rw [if_neg (hs _ (by decide))]
  rw [if_neg (by rintro (he | he | he) <;> exact hs _ (by decide) he)]
  rw [if_neg (by simp [hd]), if_neg (by simp [ha])]

/-- Dispatch: "//" enters the line-comment branch. -/
theorem scan_token_slash_slash {sc : Scanner} (h : sc.peek = '/')
    (h2 : ({ sc with current := sc.current + 1 } : Scanner).peek = '/')
    (hne : ({ sc with current := sc.current + 1 } : Scanner).is_at_end = false) :
    scan_token sc =
      (let sc2 := line_comment_loop { sc with current := sc.current + 1 + 1 }
       match byteSliceGet sc2.source (sc2.start + 2) sc2.current with
       | none => none
       | some comment => sc2.add_token .COMMENT (.str comment)) := by
  simp +decide only [scan_token, h, if_false, if_true]
  rw [Scanner.match_next_pos h2 hne]
  simp

/-- Dispatch: "/*" enters the block-comment branch. -/
theorem scan_token_slash_star {sc : Scanner} (h : sc.peek = '/')
    (h2 : ({ sc with current := sc.current + 1 } : Scanner).peek ≠ '/')
    (h3 : ({ sc with current := sc.current + 1 } : Scanner).peek = '*')
    (hne : ({ sc with current := sc.current + 1 } : Scanner).is_at_end = false) :
    scan_token sc =
      (let scl := block_loop { sc with current := sc.current + 1 + 1 }
       let sc3 := { scl with current := scl.current + 2 }
       match byteSliceGet sc3.source (sc3.start + 2) (sc3.current - 2) with
       | none => none
       | some comment => sc3.add_token .COMMENT_BLOCK (.str comment)) := by
  simp +decide only [scan_token, h, if_false, if_true]
  rw [Scanner.match_next_ne h2, Scanner.match_next_pos h3 hne]
  simp

/-- Dispatch: a bare slash emits a SLASH token. -/
theorem scan_token_slash_only {sc : Scanner} (h : sc.peek = '/')
    (h2 : ({ sc with current := sc.current + 1 } : Scanner).peek ≠ '/')
    (h3 : ({ sc with current := sc.current + 1 } : Scanner).peek ≠ '*') :
    scan_token sc =
      Scanner.add_token { sc with current := sc.current + 1 } .SLASH .null := by
  simp +decide only [scan_token, h, if_false, if_true]
  rw [Scanner.match_next_ne h2, Scanner.match_next_ne h3]
  simp

/-- C7: scanning an input that is one unterminated string literal (an
opening quote never closed) emits no token for it, sets the error flag,
and the returned sequence is exactly the end-of-input token, whose line
accounts for the newlines inside the unterminated literal. -/
theorem C7_unterminated_string (body : List Char) (hq : '"' ∉ body) :
    scan_tokens ('"' :: body) =
      some ([⟨.EOF, [], .null, 1 + body.count '\n'⟩], true) := by
  have htw : body.takeWhile (· != '"') = body :=
    List.takeWhile_eq_self_iff.mpr fun x hx => by
      simp only [bne_iff_ne, ne_eq]
      exact fun he => hq (he ▸ hx)
  have hpk : ({ source := '"' :: body, tokens := [], start := 0, current := 0,
                line := 1, has_errors := false } : Scanner).peek = '"' :=
    @Scanner.peek_of_drop { source := '"' :: body, tokens := [], start := 0,
                            current := 0, line := 1, has_errors := false }
      '"' body rfl
  have hstep : scan_token { source := '"' :: body, tokens := [], start := 0,
                            current := 0, line := 1, has_errors := false } =
      some { source := '"' :: body, tokens := [], start := 0,
             current := body.length + 1, line := 1 + body.count '\n',
             has_errors := true } := by
    rw [scan_token_quote hpk]
    unfold handle_string
    rw [string_loop_spec]
    simp only [List.drop_succ_cons, List.drop_zero, htw]
    rw [if_pos (by simp [Scanner.is_at_end]; omega)]
    unfold Scanner.fmt_error
    simp [Nat.add_comm]
  unfold scan_tokens
  simp only [List.length_cons]
  rw [scan_loop.eq_def]
  rw [if_neg (by simp [Scanner.new, Scanner.is_at_end])]
  rw [if_neg (by omega)]
  have hrec : ({ Scanner.new ('"' :: body) with
      start := (Scanner.new ('"' :: body)).current } : Scanner) =
      { source := '"' :: body, tokens := [], start := 0, current := 0,
        line := 1, has_errors := false } := rfl
  rw [hrec, hstep]
  simp only []
  rw [scan_loop.eq_def]
  rw [if_pos (by simp [Scanner.is_at_end])]
  simp

/-- `takeWhile` over a run that wholly satisfies the predicate followed by
a failing char yields exactly the run. -/
theorem takeWhile_append_cons {p : Char → Bool} (xs : List Char) (y : Char)
    (zs : List Char) (hxs : ∀ x ∈ xs, p x = true) (hy : p y = false) :
    (xs ++ y :: zs).takeWhile p = xs := by
  induction xs with
  | nil => simp [List.takeWhile_cons, hy]
  | cons a as ih =>
    simp only [List.cons_append, List.takeWhile_cons, hxs a (by simp), if_true]
    rw [ih (fun x hx => hxs x (by simp [hx]))]



/-- Witness for C7 at the concrete input "‹quote›abc". -/
theorem C7_unterminated_string_witness :
    scan_tokens ('"' :: ['a', 'b', 'c']) =
      some ([⟨.EOF, [], .null, 1⟩], true) :=
  (C7_unterminated_string ['a', 'b', 'c'] (by decide)).trans (by decide)

/-- `dropWhile` counterpart of `takeWhile_append_cons`. -/
theorem dropWhile_append_cons {p : Char → Bool} (xs : List Char) (y : Char)
    (zs : List Char) (hxs : ∀ x ∈ xs, p x = true) (hy : p y = false) :
    (xs ++ y :: zs).dropWhile p = y :: zs := by
  induction xs with
  | nil => simp [List.dropWhile_cons, hy]
  | cons a as ih =>
    simp only [List.cons_append, List.dropWhile_cons, hxs a (by simp), if_true]
    exact ih (fun x hx => hxs x (by simp [hx]))

/-- Decimal digits are ASCII. -/
theorem ascii_of_digit {c : Char} (h : is_digit c = true) : c.toNat < 128 := by
  simp only [is_digit, decide_eq_true_eq] at h
  have h2 : c.val.toNat ≤ ('9' : Char).val.toNat := Char.le_def.mp h.2
  have h3 : ('9' : Char).val.toNat = 57 := by decide
  simp only [Char.toNat]
  omega

/-- `peek` as the head of the remainder. -/
theorem Scanner.peek_eq_head (sc : Scanner) :
    sc.peek = ((sc.source.drop sc.current).head?).getD '\x00' := by
  rw [Scanner.peek_eq_getD, List.get?_eq_getElem?, ← List.head?_drop]

/-- `peek_next` as the head of the remainder one further on. -/
theorem Scanner.peek_next_eq_head (sc : Scanner) :
    sc.peek_next = ((sc.source.drop (sc.current + 1)).head?).getD '\x00' := by
  unfold Scanner.peek_next
  by_cases h : sc.source.length ≤ sc.current + 1
  · rw [if_pos h, List.drop_of_length_le h]
    rfl
  · rw [if_neg h, List.get?_eq_getElem?, ← List.head?_drop]

/-- `parseDecimal` succeeds on a nonempty pure digit string. -/
theorem parseDecimal_digits (ds : List Char) (hne : ds ≠ [])
    (hds : ∀ c ∈ ds, is_digit c = true) :
    parseDecimal ds = some (digitsToNat ds, 0) := by
  unfold parseDecimal
  rw [List.takeWhile_eq_self_iff.mpr hds,
    List.dropWhile_eq_nil_iff.mpr (fun x hx => hds x hx)]
  rw [if_neg hne]

/-- `parseDecimal` succeeds on digits, a dot, and more digits. -/
theorem parseDecimal_frac (ds fs : List Char) (hne : ds ≠ [])
    (hds : ∀ c ∈ ds, is_digit c = true) (hfs : ∀ c ∈ fs, is_digit c = true) :
    parseDecimal (ds ++ '.' :: fs) =
      some (digitsToNat ds * 10 ^ fs.length + digitsToNat fs, fs.length) := by
  unfold parseDecimal
  rw [takeWhile_append_cons ds '.' fs hds (by decide),
    dropWhile_append_cons ds '.' fs hds (by decide)]
  rw [if_neg hne]
  simp only [List.all_eq_true]
  rw [if_pos hfs]

/-- `handle_number` with no fractional part: consume the remaining integer
digits, record precision 1 and the integer value. -/
theorem handle_number_nodot (sc : Scanner) (d : Char) (intTail post : List Char)
    (hcur : sc.current = sc.start + 1)
    (hd : sc.source.drop sc.start = d :: (intTail ++ post))
    (hdd : is_digit d = true)
    (hint : ∀ c ∈ intTail, is_digit c = true)
    (hpd : is_digit (post.head?.getD '\x00') = false)
    (hpost : ¬ (post.head?.getD '\x00' = '.' ∧
      is_digit (((post.drop 1).head?).getD '\x00') = true))
    (hascii : ∀ c ∈ sc.source.take (sc.start + 1 + intTail.length),
      c.toNat < 128) :
    handle_number sc =
      some { sc with
             current := sc.start + 1 + intTail.length,
             tokens := sc.tokens ++
               [⟨.NUMBER, d :: intTail,
                 .number (digitsToNat (d :: intTail), 0) 1, sc.line⟩] } := by
  have hdc : sc.source.drop sc.current = intTail ++ post := by
    rw [hcur, ← List.tail_drop, hd]
    rfl
  have hlen : sc.start + 1 + intTail.length + post.length ≤ sc.source.length := by
    have h1 : sc.start < sc.source.length := by
      by_contra hc
      rw [List.drop_of_length_le (Nat.le_of_not_lt hc)] at hd
      exact absurd hd (by simp)
    have h2 := congrArg List.length hd
    rw [List.length_drop] at h2
    simp at h2
    omega
  have htw : (intTail ++ post).takeWhile is_digit = intTail := by
    cases post with
    | nil => simpa using List.takeWhile_eq_self_iff.mpr hint
    | cons q qs => exact takeWhile_append_cons _ _ _ hint (by simpa using hpd)
  have hdrop2 : sc.source.drop (sc.current + intTail.length) = post := by
    rw [← List.drop_drop, hdc, List.drop_left]
  unfold handle_number
  rw [skip_digits_spec, hdc, htw]
  simp only []
  rw [if_neg (by
    simp only [Scanner.peek_eq_head, Scanner.peek_next_eq_head]
    simp only [hdrop2]
    rw [← List.tail_drop, hdrop2, ← List.drop_one]
    exact hpost)]
  have hlex : byteSliceGet sc.source sc.start (sc.current + intTail.length) =
      some (d :: intTail) := by
    rw [hcur]
    rw [byteSliceGet_ascii sc.source sc.start (sc.start + 1 + intTail.length)
      hascii (by omega) (by omega)]
    rw [show sc.start + 1 + intTail.length - sc.start = intTail.length + 1 from by omega]
    rw [hd, List.take_succ_cons, List.take_left intTail post]
  simp only [Scanner.get_lexeme, Scanner.add_token, hlex]
  rw [parseDecimal_digits (d :: intTail) (by simp)
    (by intro c hc; rcases List.mem_cons.mp hc with h | h
        · exact h ▸ hdd
        · exact hint c h)]
  simp only [if_pos rfl]
  refine congrArg some (Scanner.eq_of_fields rfl rfl rfl (by simp; omega) rfl rfl)

/-- `handle_number` with a fractional part: consume the remaining integer
digits, the dot and the fractional digits; precision is the fractional
digit count, clamped to 1 when every fractional digit is 0. -/
theorem handle_number_frac (sc : Scanner) (d : Char) (intTail frac post : List Char)
    (hcur : sc.current = sc.start + 1)
    (hd : sc.source.drop sc.start = d :: (intTail ++ '.' :: (frac ++ post)))
    (hdd : is_digit d = true)
    (hint : ∀ c ∈ intTail, is_digit c = true)
    (hfrac : frac ≠ []) (hfd : ∀ c ∈ frac, is_digit c = true)
    (hpd : is_digit (post.head?.getD '\x00') = false)
    (hascii : ∀ c ∈ sc.source.take
        (sc.start + 1 + intTail.length + 1 + frac.length), c.toNat < 128) :
    handle_number sc =
      some { sc with
             current := sc.start + 1 + intTail.length + 1 + frac.length,
             tokens := sc.tokens ++
               [⟨.NUMBER, d :: (intTail ++ '.' :: frac),
                 .number (digitsToNat (d :: intTail) * 10 ^ frac.length +
                     digitsToNat frac, frac.length)
                   (if frac.all (fun x => decide (x = '0')) then 1
                    else frac.length),
                 sc.line⟩] } := by
  have hdc : sc.source.drop sc.current = intTail ++ '.' :: (frac ++ post) := by
    rw [hcur, ← List.tail_drop, hd]
    rfl
  have hlen : sc.start + 1 + intTail.length + 1 + frac.length + post.length ≤
      sc.source.length := by
    have h1 : sc.start < sc.source.length := by
      by_contra hc
      rw [List.drop_of_length_le (Nat.le_of_not_lt hc)] at hd
      exact absurd hd (by simp)
    have h2 := congrArg List.length hd
    rw [List.length_drop] at h2
    simp at h2
    omega
  have htw : (intTail ++ '.' :: (frac ++ post)).takeWhile is_digit = intTail :=
    takeWhile_append_cons _ _ _ hint (by decide)
  have hdrop2 : sc.source.drop (sc.current + intTail.length) =
      '.' :: (frac ++ post) := by
    rw [← List.drop_drop, hdc, List.drop_left]
  have hdrop3 : sc.source.drop (sc.current + intTail.length + 1) =
      frac ++ post := by
    rw [← List.tail_drop, hdrop2]
    rfl
  have htwf : (frac ++ post).takeWhile is_digit = frac := by
    cases post with
    | nil => simpa using List.takeWhile_eq_self_iff.mpr hfd
    | cons q qs => exact takeWhile_append_cons _ _ _ hfd (by simpa using hpd)
  unfold handle_number
  rw [skip_digits_spec, hdc, htw]
  simp only []
  rw [if_pos ?hcnd]
  case hcnd =>
    constructor
    · rw [Scanner.peek_eq_head]
      simp only [hdrop2]
      rfl
    · rw [Scanner.peek_next_eq_head]
      simp only [hdrop3]
      rcases frac with _ | ⟨f, fs⟩
      · exact absurd rfl hfrac
      · simpa using hfd f (by simp)
  rw [scan_frac_spec]
  simp only [hdrop3, htwf]
  have hlex : byteSliceGet sc.source sc.start
      (sc.current + intTail.length + 1 + frac.length) =
      some (d :: (intTail ++ '.' :: frac)) := by
    rw [hcur]
    rw [byteSliceGet_ascii sc.source sc.start
      (sc.start + 1 + intTail.length + 1 + frac.length)
      hascii (by omega) (by omega)]
    rw [show sc.start + 1 + intTail.length + 1 + frac.length - sc.start =
      (intTail.length + 1 + frac.length) + 1 from by omega]
    rw [hd, List.take_succ_cons]
    congr 1
    rw [show intTail.length + 1 + frac.length = intTail.length + (1 + frac.length)
      from by omega]
    rw [List.take_append]
    congr 1
    rw [show (1 : Nat) + frac.length = frac.length + 1 from by omega,
      List.take_succ_cons, List.take_left frac post]
  simp only [Scanner.get_lexeme, Scanner.add_token, hlex]
  rw [show d :: (intTail ++ '.' :: frac) = (d :: intTail) ++ '.' :: frac from rfl]
  rw [parseDecimal_frac (d :: intTail) frac (by simp)
    (by intro c hc; rcases List.mem_cons.mp hc with h | h
        · exact h ▸ hdd
        · exact hint c h) hfd]
  simp only [Bool.true_and]
  have hifz : (if (if frac.all (fun x => decide (x = '0')) = true then 1
      else frac.length) = 0 then
      (if frac.all (fun x => decide (x = '0')) = true then 1 else frac.length) + 1
      else (if frac.all (fun x => decide (x = '0')) = true then 1 else frac.length)) =
      (if frac.all (fun x => decide (x = '0')) = true then 1 else frac.length) := by
    by_cases hz : frac.all (fun x => decide (x = '0')) = true
    · simp [hz]
    · simp only [if_neg hz]
      rw [if_neg (by simp only [List.length_eq_zero]; exact hfrac)]
  simp only [hifz, Option.map_some']
  refine congrArg some (Scanner.eq_of_fields rfl ?_ rfl (by simp; omega) rfl rfl)
  simp
  split <;> simp [List.length_eq_zero, hfrac]

/-- Running `scan_tokens` when a single `scan_token` step consumes the
whole input. -/
theorem scan_tokens_of_single_step (cs : List Char) (sc1 : Scanner)
    (hne : cs ≠ [])
    (hstep : scan_token ⟨cs, [], 0, 0, 1, false⟩ = some sc1)
    (hend : sc1.is_at_end = true) :
    scan_tokens cs =
      some (sc1.tokens ++ [⟨.EOF, [], .null, sc1.line⟩], sc1.has_errors) := by
  unfold scan_tokens
  rw [scan_loop.eq_def]
  rw [if_neg (by
    simp only [Scanner.new, Scanner.is_at_end, decide_eq_true_eq]
    simp only [Bool.not_eq_true, decide_eq_false_iff_not, not_le]
    exact List.length_pos.mpr hne)]
  rw [if_neg (by simp)]
  rw [show ({ Scanner.new cs with start := (Scanner.new cs).current } : Scanner) =
    (⟨cs, [], 0, 0, 1, false⟩ : Scanner) from rfl]
  rw [hstep]
  simp only []
  rw [scan_loop.eq_def, if_pos hend]
  rfl

/-- Running `scan_tokens` when two `scan_token` steps consume the whole
input. -/
theorem scan_tokens_of_two_steps (cs : List Char) (sc1 sc2 : Scanner)
    (hne : cs ≠ [])
    (h1 : scan_token ⟨cs, [], 0, 0, 1, false⟩ = some sc1)
    (hmid : sc1.is_at_end = false)
    (h2 : scan_token { sc1 with start := sc1.current } = some sc2)
    (hend : sc2.is_at_end = true) :
    scan_tokens cs =
      some (sc2.tokens ++ [⟨.EOF, [], .null, sc2.line⟩], sc2.has_errors) := by
  unfold scan_tokens
  rw [scan_loop.eq_def]
  rw [if_neg (by
    simp only [Scanner.new, Scanner.is_at_end, decide_eq_true_eq]
    simp only [Bool.not_eq_true, decide_eq_false_iff_not, not_le]
    exact List.length_pos.mpr hne)]
  rw [if_neg (by simp)]
  rw [show ({ Scanner.new cs with start := (Scanner.new cs).current } : Scanner) =
    (⟨cs, [], 0, 0, 1, false⟩ : Scanner) from rfl]
  rw [h1]
  simp only []
  rw [scan_loop.eq_def, if_neg (by simp [hmid])]
  rw [if_neg (by simp [List.length_eq_zero]; exact hne)]
  rw [h2]
  simp only []
  rw [scan_loop.eq_def, if_pos hend]
  rfl

/-- C6: numeric literal scanning.  (1) A pure digit run gets rendering
precision 1 and its integer value.  (2) With a decimal point and at least
one digit after it, the precision is the count of fractional digits,
clamped to 1 when every fractional digit is 0 — and the clamped literal
45.000 indeed renders as "45.0".  (3) A trailing dot with no following
digit is not consumed as part of the number: it becomes a separate DOT
token. -/
theorem C6_number_precision :
    (∀ (d : Char) (ds' : List Char), (∀ c ∈ d :: ds', is_digit c = true) →
      scan_tokens (d :: ds') =
        some ([⟨.NUMBER, d :: ds', .number (digitsToNat (d :: ds'), 0) 1, 1⟩,
               ⟨.EOF, [], .null, 1⟩], false)) ∧
    (∀ (d : Char) (ds' fs : List Char), (∀ c ∈ d :: ds', is_digit c = true) →
      fs ≠ [] → (∀ c ∈ fs, is_digit c = true) →
      scan_tokens (d :: (ds' ++ '.' :: fs)) =
        some ([⟨.NUMBER, d :: (ds' ++ '.' :: fs),
               .number (digitsToNat (d :: ds') * 10 ^ fs.length + digitsToNat fs,
                 fs.length)
                 (if fs.all (fun x => decide (x = '0')) then 1 else fs.length), 1⟩,
               ⟨.EOF, [], .null, 1⟩], false)) ∧
    (∀ (d : Char) (ds' : List Char), (∀ c ∈ d :: ds', is_digit c = true) →
      scan_tokens (d :: (ds' ++ ['.'])) =
        some ([⟨.NUMBER, d :: ds', .number (digitsToNat (d :: ds'), 0) 1, 1⟩,
               ⟨.DOT, ['.'], .null, 1⟩, ⟨.EOF, [], .null, 1⟩], false)) ∧
    Literal.display (.number (45000, 3) 1) = "45.0" := by
  refine ⟨?_, ?_, ?_, by rfl⟩
  · intro d ds' hdig
    have hstep : scan_token ⟨d :: ds', [], 0, 0, 1, false⟩ =
        some ⟨d :: ds',
              [⟨.NUMBER, d :: ds', .number (digitsToNat (d :: ds'), 0) 1, 1⟩],
              0, 0 + 1 + ds'.length, 1, false⟩ := by
      rw [scan_token_digit (by
        rw [show (⟨d :: ds', [], 0, 0, 1, false⟩ : Scanner).peek = d
          from Scanner.peek_of_drop rfl]
        exact hdig d (by simp))]
      exact handle_number_nodot _ d ds' [] rfl (by simp)
        (hdig d (by simp)) (fun c hc => hdig c (by simp [hc]))
        (by decide) (by decide)
        (fun c hc => ascii_of_digit (hdig c (List.mem_of_mem_take hc)))
    rw [scan_tokens_of_single_step (d :: ds') _ (by simp) hstep
      (by simp [Scanner.is_at_end]; omega)]
    simp
  · intro d ds' fs hdig hfne hfd
    have hstep : scan_token ⟨d :: (ds' ++ '.' :: fs), [], 0, 0, 1, false⟩ =
        some ⟨d :: (ds' ++ '.' :: fs),
              [⟨.NUMBER, d :: (ds' ++ '.' :: fs),
               .number (digitsToNat (d :: ds') * 10 ^ fs.length + digitsToNat fs,
                 fs.length)
                 (if fs.all (fun x => decide (x = '0')) then 1 else fs.length), 1⟩],
              0, 0 + 1 + ds'.length + 1 + fs.length, 1, false⟩ := by
      rw [scan_token_digit (by
        rw [show (⟨d :: (ds' ++ '.' :: fs), [], 0, 0, 1, false⟩ : Scanner).peek = d
          from Scanner.peek_of_drop rfl]
        exact hdig d (by simp))]
      exact handle_number_frac _ d ds' fs [] rfl (by simp)
        (hdig d (by simp)) (fun c hc => hdig c (by simp [hc]))
        hfne hfd (by decide)
        (by
          intro c hc
          have hm := List.mem_of_mem_take hc
          rcases List.mem_cons.mp hm with h | h
          · exact ascii_of_digit (h ▸ hdig d (by simp))
          · rcases List.mem_append.mp h with h2 | h2
            · exact ascii_of_digit (hdig c (by simp [h2]))
            · rcases List.mem_cons.mp h2 with h3 | h3
              · rw [h3]
                decide
              · exact ascii_of_digit (hfd c h3))
    rw [scan_tokens_of_single_step _ _ (by simp) hstep
      (by simp [Scanner.is_at_end]; omega)]
    simp
  · intro d ds' hdig
    have hascii3 : ∀ c ∈ (d :: (ds' ++ ['.'])), c.toNat < 128 := by
      intro c hc
      rcases List.mem_cons.mp hc with h | h
      · exact ascii_of_digit (h ▸ hdig d (by simp))
      · rcases List.mem_append.mp h with h2 | h2
        · exact ascii_of_digit (hdig c (by simp [h2]))
        · simp at h2
          rw [h2]
          decide
    have hstep : scan_token ⟨d :: (ds' ++ ['.']), [], 0, 0, 1, false⟩ =
        some ⟨d :: (ds' ++ ['.']),
              [⟨.NUMBER, d :: ds', .number (digitsToNat (d :: ds'), 0) 1, 1⟩],
              0, 0 + 1 + ds'.length, 1, false⟩ := by
      rw [scan_token_digit (by
        rw [show (⟨d :: (ds' ++ ['.']), [], 0, 0, 1, false⟩ : Scanner).peek = d
          from Scanner.peek_of_drop rfl]
        exact hdig d (by simp))]
      exact handle_number_nodot _ d ds' ['.'] rfl (by simp)
        (hdig d (by simp)) (fun c hc => hdig c (by simp [hc]))
        (by decide) (by decide)
        (fun c hc => hascii3 c (List.mem_of_mem_take hc))
    have hdtl : (d :: (ds' ++ ['.'])).drop (0 + 1 + ds'.length) = ['.'] := by
      rw [show (0 + 1 + ds'.length) = ds'.length + 1 from by omega]
      rw [List.drop_succ_cons]
      rw [show ds'.length = ds'.length + 0 from by omega, ← List.drop_drop,
        List.drop_left]
      rfl
    have hdotpk : (⟨d :: (ds' ++ ['.']),
        [⟨.NUMBER, d :: ds', .number (digitsToNat (d :: ds'), 0) 1, 1⟩],
        0 + 1 + ds'.length, 0 + 1 + ds'.length, 1, false⟩ : Scanner).peek = '.' :=
      Scanner.peek_of_drop hdtl
    have hstep2 : scan_token ⟨d :: (ds' ++ ['.']),
        [⟨.NUMBER, d :: ds', .number (digitsToNat (d :: ds'), 0) 1, 1⟩],
        0 + 1 + ds'.length, 0 + 1 + ds'.length, 1, false⟩ =
        some ⟨d :: (ds' ++ ['.']),
              [⟨.NUMBER, d :: ds', .number (digitsToNat (d :: ds'), 0) 1, 1⟩,
               ⟨.DOT, ['.'], .null, 1⟩],
              0 + 1 + ds'.length, 0 + 1 + ds'.length + 1, 1, false⟩ := by
      rw [@scan_token_simple _ '.' TokenType.DOT hdotpk (by decide)]
      unfold Scanner.add_token Scanner.get_lexeme
      have hsl : byteSliceGet (d :: (ds' ++ ['.'])) (0 + 1 + ds'.length)
          (0 + 1 + ds'.length + 1) = some ['.'] := by
        rw [byteSliceGet_ascii _ _ _
          (fun c hc => hascii3 c (List.mem_of_mem_take hc))
          (by omega) (by simp; omega)]
        rw [show 0 + 1 + ds'.length + 1 - (0 + 1 + ds'.length) = 1 from by omega]
        rw [hdtl]
        rfl
      simp only [hsl, Option.map_some']
      rfl
    rw [scan_tokens_of_two_steps _ _ _ (by simp) hstep
      (by simp [Scanner.is_at_end]; omega) hstep2
      (by simp [Scanner.is_at_end]; omega)]
    simp


/-- Witness for C6 at the concrete numerals 45, 45.000, 45.67 and 45. -/
theorem C6_number_precision_witness :
    (scan_tokens ['4', '5'] =
      some ([⟨.NUMBER, ['4', '5'], .number (45, 0) 1, 1⟩,
             ⟨.EOF, [], .null, 1⟩], false)) ∧
    (scan_tokens ['4', '5', '.', '0', '0', '0'] =
      some ([⟨.NUMBER, ['4', '5', '.', '0', '0', '0'], .number (45000, 3) 1, 1⟩,
             ⟨.EOF, [], .null, 1⟩], false)) ∧
    (scan_tokens ['4', '5', '.', '6', '7'] =
      some ([⟨.NUMBER, ['4', '5', '.', '6', '7'], .number (4567, 2) 2, 1⟩,
             ⟨.EOF, [], .null, 1⟩], false)) ∧
    (scan_tokens ['4', '5', '.'] =
      some ([⟨.NUMBER, ['4', '5'], .number (45, 0) 1, 1⟩,
             ⟨.DOT, ['.'], .null, 1⟩, ⟨.EOF, [], .null, 1⟩], false)) :=
  ⟨(C6_number_precision.1 '4' ['5'] (by decide)).trans (by decide),
   (C6_number_precision.2.1 '4' ['5'] ['0', '0', '0'] (by decide) (by decide)
     (by decide)).trans (by decide),
   (C6_number_precision.2.1 '4' ['5'] ['6', '7'] (by decide) (by decide)
     (by decide)).trans (by decide),
   (C6_number_precision.2.2.1 '4' ['5'] (by decide)).trans (by decide)⟩


/-- The scanner's line-counting invariant: `line` is one more than the
number of newlines among the consumed chars. -/
def line_inv (sc : Scanner) : Prop :=
  sc.line = 1 + (sc.source.take sc.current).count '\n'

/-- Taking as many chars as `takeWhile` keeps recovers `takeWhile`. -/
theorem take_len_takeWhile (l : List Char) (p : Char → Bool) :
    l.take (l.takeWhile p).length = l.takeWhile p := by
  induction l with
  | nil => simp
  | cons a l ih => by_cases hp : p a <;> simp [List.takeWhile_cons, hp, ih]

/-- Newline count across a consumed `takeWhile` segment. -/
theorem count_take_tw (cs : List Char) (i : Nat) (p : Char → Bool) :
    (cs.take (i + ((cs.drop i).takeWhile p).length)).count '\n' =
      (cs.take i).count '\n' + ((cs.drop i).takeWhile p).count '\n' := by
  rw [List.take_add, List.count_append]
  congr 2
  exact take_len_takeWhile (cs.drop i) p

/-- A `takeWhile` segment whose predicate rejects newline contains no
newline. -/
theorem count_tw_zero {p : Char → Bool} (hp : p '\n' = false)
    (l : List Char) : (l.takeWhile p).count '\n' = 0 := by
  rw [List.count_eq_zero]
  intro hmem
  have := List.mem_takeWhile_imp hmem
  rw [hp] at this
  exact absurd this (by simp)

/-- Newline count after consuming one char. -/
theorem count_take_succ (cs : List Char) (i : Nat) :
    (cs.take (i + 1)).count '\n' =
      (cs.take i).count '\n' +
        (if ((cs.drop i).head?).getD '\x00' = '\n' then 1 else 0) := by
  rw [List.take_add, List.count_append]
  congr 1
  rcases hd : cs.drop i with _ | ⟨c, t⟩
  · simp [hd]
  · simp [hd, List.count_cons]

/-- `line_inv` after consuming one non-newline char. -/
theorem line_inv_bump_ne {sc : Scanner} (hn : sc.peek ≠ '\n')
    (h : line_inv sc) : line_inv { sc with current := sc.current + 1 } := by
  unfold line_inv at *
  simp only []
  rw [count_take_succ, if_neg (by rw [← Scanner.peek_eq_head]; exact hn)]
  omega

/-- `line_inv` after consuming a newline with the line counter bumped. -/
theorem line_inv_bump_nl {sc : Scanner} (hn : sc.peek = '\n')
    (h : line_inv sc) :
    line_inv { sc with current := sc.current + 1, line := sc.line + 1 } := by
  unfold line_inv at *
  simp only []
  have hlt : sc.current < sc.source.length :=
    sc.lt_of_peek_ne_nul (by rw [hn]; decide)
  rw [count_take_succ, if_pos (by rw [← Scanner.peek_eq_head]; exact hn)]
  omega

/-- The `while` loop of `handle_string` stops at a quote or the end. -/
theorem string_loop_exit (sc : Scanner) :
    (string_loop sc).peek = '"' ∨ (string_loop sc).is_at_end = true := by
  induction sc using string_loop.induct with
  | case1 sc h ih => rw [string_loop, dif_pos h]; exact ih
  | case2 sc h =>
    rw [string_loop, dif_neg h]
    by_cases h1 : sc.peek = '"'
    · exact Or.inl h1
    · by_cases h2 : sc.is_at_end
      · exact Or.inr h2
      · exact absurd ⟨h1, h2⟩ h

/-- The block-comment loop stops at a `*/` terminator or the end. -/
theorem block_loop_exit (sc : Scanner) :
    ((block_loop sc).peek = '*' ∧ (block_loop sc).peek_next = '/') ∨
      (block_loop sc).is_at_end = true := by
  induction sc using block_loop.induct with
  | case1 sc h ih => rw [block_loop, dif_pos h]; exact ih
  | case2 sc h =>
    rw [block_loop, dif_neg h]
    by_cases h1 : sc.peek = '*' ∧ sc.peek_next = '/'
    · exact Or.inl h1
    · by_cases h2 : sc.is_at_end
      · exact Or.inr h2
      · exact absurd ⟨h1, h2⟩ h

/-- The block-comment loop only moves the cursor and the line counter,
forward, preserving the line-count invariant. -/
theorem block_loop_bundle (sc : Scanner) :
    (block_loop sc).source = sc.source ∧ (block_loop sc).tokens = sc.tokens ∧
    (block_loop sc).start = sc.start ∧
    (block_loop sc).has_errors = sc.has_errors ∧
    sc.current ≤ (block_loop sc).current ∧ sc.line ≤ (block_loop sc).line ∧
    (line_inv sc → line_inv (block_loop sc)) := by
  induction sc using block_loop.induct with
  | case1 sc h ih =>
    rw [block_loop, dif_pos h]
    simp only [dite_eq_ite] at ih ⊢
    obtain ⟨i1, i2, i3, i4, i5, i6, i7⟩ := ih
    refine ⟨i1, i2, i3, i4, le_trans (Nat.le_succ _) i5, ?_, ?_⟩
    · refine le_trans ?_ i6
      by_cases hnl : sc.peek = '\n' <;> simp [hnl]
    · intro hli
      refine i7 ?_
      by_cases hnl : sc.peek = '\n'
      · rw [if_pos hnl]
        exact line_inv_bump_nl hnl hli
      · rw [if_neg hnl]
        exact line_inv_bump_ne hnl hli
  | case2 sc h =>
    rw [block_loop, dif_neg h]
    exact ⟨rfl, rfl, rfl, rfl, le_refl _, le_refl _, fun hli => hli⟩

/-- What a single non-final scanner computation preserves: source, start
and tokens unchanged, cursor and line move forward, line invariant kept. -/
def pre_inv (sc sc' : Scanner) : Prop :=
  sc'.source = sc.source ∧ sc'.start = sc.start ∧ sc'.tokens = sc.tokens ∧
  sc.current ≤ sc'.current ∧ sc.line ≤ sc'.line ∧
  (line_inv sc → line_inv sc')

/-- What the remainder of a `scan_token` step guarantees: like `pre_inv`
but possibly appending one non-EOF token carrying the final line. -/
def step_rest (sc sc' : Scanner) : Prop :=
  sc'.source = sc.source ∧ sc'.start = sc.start ∧
  sc.current ≤ sc'.current ∧ sc.line ≤ sc'.line ∧
  (line_inv sc → line_inv sc') ∧
  (sc'.tokens = sc.tokens ∨
    ∃ t, sc'.tokens = sc.tokens ++ [t] ∧ t.line = sc'.line ∧
      t.token_type ≠ TokenType.EOF)

/-- What one whole `scan_token` step guarantees (cursor strictly
advances). -/
def scan_step_ok (sc sc' : Scanner) : Prop :=
  sc'.source = sc.source ∧ sc'.start = sc.start ∧
  sc.current < sc'.current ∧ sc.line ≤ sc'.line ∧
  (line_inv sc → line_inv sc') ∧
  (sc'.tokens = sc.tokens ∨
    ∃ t, sc'.tokens = sc.tokens ++ [t] ∧ t.line = sc'.line ∧
      t.token_type ≠ TokenType.EOF)

theorem pre_inv_refl (sc : Scanner) : pre_inv sc sc :=
  ⟨rfl, rfl, rfl, le_refl _, le_refl _, fun h => h⟩

theorem pre_inv_trans {a b c : Scanner} (h1 : pre_inv a b) (h2 : pre_inv b c) :
    pre_inv a c :=
  ⟨h2.1.trans h1.1, h2.2.1.trans h1.2.1, h2.2.2.1.trans h1.2.2.1,
   le_trans h1.2.2.2.1 h2.2.2.2.1, le_trans h1.2.2.2.2.1 h2.2.2.2.2.1,
   fun h => h2.2.2.2.2.2 (h1.2.2.2.2.2 h)⟩

theorem step_rest_of_pre {a b : Scanner} (h : pre_inv a b) : step_rest a b :=
  ⟨h.1, h.2.1, h.2.2.2.1, h.2.2.2.2.1, h.2.2.2.2.2, Or.inl h.2.2.1⟩

theorem step_rest_comp_pre {a b c : Scanner} (h1 : pre_inv a b)
    (h2 : step_rest b c) : step_rest a c := by
  refine ⟨h2.1.trans h1.1, h2.2.1.trans h1.2.1,
    le_trans h1.2.2.2.1 h2.2.2.1, le_trans h1.2.2.2.2.1 h2.2.2.2.1,
    fun h => h2.2.2.2.2.1 (h1.2.2.2.2.2 h), ?_⟩
  rcases h2.2.2.2.2.2 with ht | ⟨t, ht, hl, he⟩
  · exact Or.inl (ht.trans h1.2.2.1)
  · exact Or.inr ⟨t, by rw [ht, h1.2.2.1], hl, he⟩

theorem scan_step_ok_of {a b c : Scanner} (h1 : pre_inv a b)
    (hlt : a.current < b.current) (h2 : step_rest b c) : scan_step_ok a c := by
  have h := step_rest_comp_pre h1 h2
  exact ⟨h.1, h.2.1, lt_of_lt_of_le hlt h2.2.2.1, h.2.2.2.1,
    h.2.2.2.2.1, h.2.2.2.2.2⟩

/-- Advancing over a non-newline char. -/
theorem pre_inv_bump_ne {sc : Scanner} (hn : sc.peek ≠ '\n') :
    pre_inv sc { sc with current := sc.current + 1 } :=
  ⟨rfl, rfl, rfl, Nat.le_succ _, le_refl _, line_inv_bump_ne hn⟩

/-- `add_token` succeeds only by appending one token with the current
lexeme and line. -/
theorem add_token_some {sc sc' : Scanner} {tt : TokenType} {lit : Literal}
    (h : sc.add_token tt lit = some sc') :
    ∃ lx, sc' = { sc with tokens := sc.tokens ++ [⟨tt, lx, lit, sc.line⟩] } := by
  unfold Scanner.add_token at h
  rcases hg : sc.get_lexeme with _ | lx
  · rw [hg] at h
    exact absurd h (by simp)
  · rw [hg] at h
    simp at h
    exact ⟨lx, h.symm⟩

theorem step_rest_add {sc sc' : Scanner} {tt : TokenType} {lit : Literal}
    (htt : tt ≠ TokenType.EOF) (h : sc.add_token tt lit = some sc') :
    step_rest sc sc' := by
  obtain ⟨lx, rfl⟩ := add_token_some h
  exact ⟨rfl, rfl, le_refl _, le_refl _, fun hli => hli,
    Or.inr ⟨_, rfl, rfl, htt⟩⟩

theorem step_rest_err (sc : Scanner) : step_rest sc sc.fmt_error :=
  ⟨rfl, rfl, le_refl _, le_refl _, fun hli => hli, Or.inl rfl⟩

/-- The digit-skipping loop is a `pre_inv` step. -/
theorem pre_inv_skip_digits (sc : Scanner) : pre_inv sc (skip_digits sc) := by
  rw [skip_digits_spec]
  refine ⟨rfl, rfl, rfl, by simp, le_refl _, ?_⟩
  intro h
  unfold line_inv at *
  simp only []
  rw [count_take_tw, count_tw_zero (by decide)]
  omega

/-- The identifier loop is a `pre_inv` step. -/
theorem pre_inv_ident_loop (sc : Scanner) : pre_inv sc (ident_loop sc) := by
  rw [ident_loop_spec]
  refine ⟨rfl, rfl, rfl, by simp, le_refl _, ?_⟩
  intro h
  unfold line_inv at *
  simp only []
  rw [count_take_tw, count_tw_zero (by decide)]
  omega

/-- The line-comment loop is a `pre_inv` step. -/
theorem pre_inv_line_comment_loop (sc : Scanner) :
    pre_inv sc (line_comment_loop sc) := by
  rw [line_comment_loop_spec]
  refine ⟨rfl, rfl, rfl, by simp, le_refl _, ?_⟩
  intro h
  unfold line_inv at *
  simp only []
  rw [count_take_tw, count_tw_zero (by decide)]
  omega

/-- The string loop is a `pre_inv` step. -/
theorem pre_inv_string_loop (sc : Scanner) : pre_inv sc (string_loop sc) := by
  rw [string_loop_spec]
  refine ⟨rfl, rfl, rfl, by simp, by simp, ?_⟩
  intro h
  unfold line_inv at *
  simp only []
  rw [count_take_tw]
  omega

/-- The fractional-digits loop is a `pre_inv` step on its scanner
component. -/
theorem pre_inv_scan_frac (sc : Scanner) (p : Nat) (z : Bool) :
    pre_inv sc (scan_frac sc p z).1 := by
  rw [scan_frac_spec]
  refine ⟨rfl, rfl, rfl, by simp, le_refl _, ?_⟩
  intro h
  unfold line_inv at *
  simp only []
  rw [count_take_tw, count_tw_zero (by decide)]
  omega

/-- The block loop is a `pre_inv` step. -/
theorem pre_inv_block_loop (sc : Scanner) : pre_inv sc (block_loop sc) := by
  obtain ⟨i1, i2, i3, _, i5, i6, i7⟩ := block_loop_bundle sc
  exact ⟨i1, i3, i2, i5, i6, i7⟩

/-- Skipping the two terminator positions after the block loop keeps the
line invariant: they hold `*` and `/` — or lie past the end. -/
theorem pre_inv_block_adjust (sc : Scanner)
    (hx : (sc.peek = '*' ∧ sc.peek_next = '/') ∨ sc.is_at_end = true) :
    pre_inv sc { sc with current := sc.current + 2 } := by
  refine ⟨rfl, rfl, rfl, by simp, le_refl _, ?_⟩
  intro h
  unfold line_inv at *
  simp only []
  rw [show sc.current + 2 = sc.current + 1 + 1 from rfl]
  rw [count_take_succ, count_take_succ]
  rcases hx with ⟨h1, h2⟩ | hend
  · rw [if_neg (by rw [← Scanner.peek_eq_head, h1]; decide)]
    rw [if_neg (by
      rw [← Scanner.peek_next_eq_head, h2]
      decide)]
    omega
  · simp only [Scanner.is_at_end, decide_eq_true_eq] at hend
    rw [if_neg (by rw [List.drop_of_length_le hend]; decide)]
    rw [if_neg (by rw [List.drop_of_length_le (by omega)]; decide)]
    omega

/-- An if-then-else avoiding a value its branches avoid. -/
theorem ite_ne {c : Prop} [Decidable c] {α : Type} {a b x : α}
    (ha : a ≠ x) (hb : b ≠ x) : (if c then a else b) ≠ x := by
  by_cases h : c
  · rw [if_pos h]
    exact ha
  · rw [if_neg h]
    exact hb

/-- The keyword table never yields EOF. -/
theorem keyword_type_ne_eof (l : List Char) : keyword_type l ≠ .EOF := by
  unfold keyword_type
  repeat' apply ite_ne
  all_goals decide

/-- The two possible outcomes of `match_next`. -/
theorem match_next_cases {sc : Scanner} {e : Char} {m : Bool} {sc2 : Scanner}
    (h : sc.match_next e = (m, sc2)) :
    sc2 = sc ∨ (sc.peek = e ∧ sc2 = { sc with current := sc.current + 1 }) := by
  unfold Scanner.match_next at h
  split at h
  · exact Or.inl (congrArg Prod.snd h).symm
  · split at h
    · exact Or.inl (congrArg Prod.snd h).symm
    · next hne =>
      refine Or.inr ⟨not_not.mp (by simpa using hne), ?_⟩
      exact (congrArg Prod.snd h).symm

/-- `handle_string` as a `step_rest` step. -/
theorem handle_string_inv {sc0 sc' : Scanner}
    (h : handle_string sc0 = some sc') : step_rest sc0 sc' := by
  unfold handle_string at h
  simp only [] at h
  by_cases hae : (string_loop sc0).is_at_end = true
  · rw [if_pos (by rw [hae])] at h
    have hsc : sc' = (string_loop sc0).fmt_error := by
      injection h with h2
      exact h2.symm
    rw [hsc]
    exact step_rest_comp_pre (pre_inv_string_loop sc0)
      (step_rest_err (string_loop sc0))
  · rw [if_neg (by simp [hae])] at h
    have hq : (string_loop sc0).peek = '"' := by
      rcases string_loop_exit sc0 with hq | hend
      · exact hq
      · exact absurd hend hae
    rcases hbs : byteSliceGet (string_loop sc0).source
        ((string_loop sc0).start + 1)
        ((string_loop sc0).current + 1 - 1) with _ | lit
    · rw [hbs] at h
      exact absurd h (by simp)
    · rw [hbs] at h
      refine step_rest_comp_pre (pre_inv_string_loop sc0)
        (step_rest_comp_pre (pre_inv_bump_ne (by rw [hq]; decide)) ?_)
      exact step_rest_add (by decide) h

/-- `handle_identifier` as a `step_rest` step. -/
theorem handle_identifier_inv {sc0 sc' : Scanner}
    (h : handle_identifier sc0 = some sc') : step_rest sc0 sc' := by
  unfold handle_identifier at h
  simp only [] at h
  rcases hg : (ident_loop sc0).get_lexeme with _ | ident
  · rw [hg] at h
    exact absurd h (by simp)
  · rw [hg] at h
    exact step_rest_comp_pre (pre_inv_ident_loop sc0)
      (step_rest_add (keyword_type_ne_eof ident) h)

/-- `handle_number` as a `step_rest` step. -/
theorem handle_number_inv {sc0 sc' : Scanner}
    (h : handle_number sc0 = some sc') : step_rest sc0 sc' := by
  unfold handle_number at h
  simp only [] at h
  by_cases hdot : ((skip_digits sc0).peek = '.' ∧
      is_digit (skip_digits sc0).peek_next = true)
  · rw [if_pos hdot] at h
    rcases hsf : scan_frac
        { skip_digits sc0 with current := (skip_digits sc0).current + 1 }
        0 true with ⟨sf, p, z⟩
    rw [hsf] at h
    simp only [] at h
    have hsfpre : pre_inv
        { skip_digits sc0 with current := (skip_digits sc0).current + 1 } sf := by
      have := pre_inv_scan_frac
        { skip_digits sc0 with current := (skip_digits sc0).current + 1 } 0 true
      rw [hsf] at this
      exact this
    have hpre : pre_inv sc0 sf :=
      pre_inv_trans (pre_inv_skip_digits sc0)
        (pre_inv_trans (pre_inv_bump_ne (by rw [hdot.1]; decide)) hsfpre)
    rcases hg : sf.get_lexeme with _ | lx
    · rw [hg] at h
      exact absurd h (by simp)
    · rw [hg] at h
      simp only [] at h
      rcases hp : parseDecimal lx with _ | v
      · rw [hp] at h
        have hsc : sc' = sf.fmt_error := by
          injection h with h2
          exact h2.symm
        rw [hsc]
        exact step_rest_comp_pre hpre (step_rest_err sf)
      · rw [hp] at h
        exact step_rest_comp_pre hpre (step_rest_add (by decide) h)
  · rw [if_neg hdot] at h
    simp only [] at h
    have hpre : pre_inv sc0 (skip_digits sc0) := pre_inv_skip_digits sc0
    rcases hg : (skip_digits sc0).get_lexeme with _ | lx
    · rw [hg] at h
      exact absurd h (by simp)
    · rw [hg] at h
      simp only [] at h
      rcases hp : parseDecimal lx with _ | v
      · rw [hp] at h
        have hsc : sc' = (skip_digits sc0).fmt_error := by
          injection h with h2
          exact h2.symm
        rw [hsc]
        exact step_rest_comp_pre hpre (step_rest_err (skip_digits sc0))
      · rw [hp] at h
        exact step_rest_comp_pre hpre (step_rest_add (by decide) h)

/-- Every successful `scan_token` step strictly advances the cursor,
never moves the line counter backwards, preserves the line-count
invariant, and appends at most one token — a non-EOF token carrying the
line at which the step ended. -/
theorem scan_token_inv {sc sc' : Scanner} (h : scan_token sc = some sc') :
    scan_step_ok sc sc' := by
  by_cases h1 : sc.peek = '('
  · rw [@scan_token_simple _ _ .LEFT_PAREN h1 (by decide)] at h
    exact scan_step_ok_of (pre_inv_bump_ne (by rw [h1]; decide))
      (Nat.lt_succ_self _) (step_rest_add (by decide) h)
  by_cases h2 : sc.peek = ')'
  · rw [@scan_token_simple _ _ .RIGHT_PAREN h2 (by decide)] at h
    exact scan_step_ok_of (pre_inv_bump_ne (by rw [h2]; decide))
      (Nat.lt_succ_self _) (step_rest_add (by decide) h)
  by_cases h3 : sc.peek = '\x7b'
  · rw [@scan_token_simple _ _ .LEFT_BRACE h3 (by decide)] at h
    exact scan_step_ok_of (pre_inv_bump_ne (by rw [h3]; decide))
      (Nat.lt_succ_self _) (step_rest_add (by decide) h)
  by_cases h4 : sc.peek = '\x7d'
  · rw [@scan_token_simple _ _ .RIGHT_BRACE h4 (by decide)] at h
    exact scan_step_ok_of (pre_inv_bump_ne (by rw [h4]; decide))
      (Nat.lt_succ_self _) (step_rest_add (by decide) h)
  by_cases h5 : sc.peek = ','
  · rw [@scan_token_simple _ _ .COMMA h5 (by decide)] at h
    exact scan_step_ok_of (pre_inv_bump_ne (by rw [h5]; decide))
      (Nat.lt_succ_self _) (step_rest_add (by decide) h)
  by_cases h6 : sc.peek = '.'
  · rw [@scan_token_simple _ _ .DOT h6 (by decide)] at h
    exact scan_step_ok_of (pre_inv_bump_ne (by rw [h6]; decide))
      (Nat.lt_succ_self _) (step_rest_add (by decide) h)
  by_cases h7 : sc.peek = '-'
  · rw [@scan_token_simple _ _ .MINUS h7 (by decide)] at h
    exact scan_step_ok_of (pre_inv_bump_ne (by rw [h7]; decide))
      (Nat.lt_succ_self _) (step_rest_add (by decide) h)
  by_cases h8 : sc.peek = '+'
  · rw [@scan_token_simple _ _ .PLUS h8 (by decide)] at h
    exact scan_step_ok_of (pre_inv_bump_ne (by rw [h8]; decide))
      (Nat.lt_succ_self _) (step_rest_add (by decide) h)
  by_cases h9 : sc.peek = ';'
  · rw [@scan_token_simple _ _ .SEMICOLON h9 (by decide)] at h
    exact scan_step_ok_of (pre_inv_bump_ne (by rw [h9]; decide))
      (Nat.lt_succ_self _) (step_rest_add (by decide) h)
  by_cases h10 : sc.peek = '*'
  · rw [@scan_token_simple _ _ .STAR h10 (by decide)] at h
    exact scan_step_ok_of (pre_inv_bump_ne (by rw [h10]; decide))
      (Nat.lt_succ_self _) (step_rest_add (by decide) h)
  by_cases h11 : sc.peek = '!'
  · rw [@scan_token_two_op _ _ .BANG_EQUAL .BANG h11 (by decide)] at h
    rcases hmn : ({ sc with current := sc.current + 1 } : Scanner).match_next '='
      with ⟨m, sc2⟩
    rw [hmn] at h
    simp only [] at h
    have hpre : pre_inv sc sc2 := by
      rcases match_next_cases hmn with he | ⟨hp, he⟩
      · rw [he]
        exact pre_inv_bump_ne (by rw [h11]; decide)
      · rw [he]
        exact pre_inv_trans (pre_inv_bump_ne (by rw [h11]; decide))
          (pre_inv_bump_ne (by rw [hp]; decide))
    have hlt : sc.current < sc2.current := by
      rcases match_next_cases hmn with he | ⟨hp, he⟩
      · rw [he]
        exact Nat.lt_succ_self _
      · rw [he]
        show sc.current < sc.current + 1 + 1
        omega
    exact scan_step_ok_of hpre hlt (step_rest_add (by cases m <;> decide) h)
  by_cases h12 : sc.peek = '='
  · rw [@scan_token_two_op _ _ .EQUAL_EQUAL .EQUAL h12 (by decide)] at h
    rcases hmn : ({ sc with current := sc.current + 1 } : Scanner).match_next '='
      with ⟨m, sc2⟩
    rw [hmn] at h
    simp only [] at h
    have hpre : pre_inv sc sc2 := by
      rcases match_next_cases hmn with he | ⟨hp, he⟩
      · rw [he]
        exact pre_inv_bump_ne (by rw [h12]; decide)
      · rw [he]
        exact pre_inv_trans (pre_inv_bump_ne (by rw [h12]; decide))
          (pre_inv_bump_ne (by rw [hp]; decide))
    have hlt : sc.current < sc2.current := by
      rcases match_next_cases hmn with he | ⟨hp, he⟩
      · rw [he]
        exact Nat.lt_succ_self _
      · rw [he]
        show sc.current < sc.current + 1 + 1
        omega
    exact scan_step_ok_of hpre hlt (step_rest_add (by cases m <;> decide) h)
  by_cases h13 : sc.peek = '>'
  · rw [@scan_token_two_op _ _ .GREATER_EQUAL .GREATER h13 (by decide)] at h
    rcases hmn : ({ sc with current := sc.current + 1 } : Scanner).match_next '='
      with ⟨m, sc2⟩
    rw [hmn] at h
    simp only [] at h
    have hpre : pre_inv sc sc2 := by
      rcases match_next_cases hmn with he | ⟨hp, he⟩
      · rw [he]
        exact pre_inv_bump_ne (by rw [h13]; decide)
      · rw [he]
        exact pre_inv_trans (pre_inv_bump_ne (by rw [h13]; decide))
          (pre_inv_bump_ne (by rw [hp]; decide))
    have hlt : sc.current < sc2.current := by
      rcases match_next_cases hmn with he | ⟨hp, he⟩
      · rw [he]
        exact Nat.lt_succ_self _
      · rw [he]
        show sc.current < sc.current + 1 + 1
        omega
    exact scan_step_ok_of hpre hlt (step_rest_add (by cases m <;> decide) h)
  by_cases h14 : sc.peek = '<'
  · rw [@scan_token_two_op _ _ .LESS_EQUAL .LESS h14 (by decide)] at h
    rcases hmn : ({ sc with current := sc.current + 1 } : Scanner).match_next '='
      with ⟨m, sc2⟩
    rw [hmn] at h
    simp only [] at h
    have hpre : pre_inv sc sc2 := by
      rcases match_next_cases hmn with he | ⟨hp, he⟩
      · rw [he]
        exact pre_inv_bump_ne (by rw [h14]; decide)
      · rw [he]
        exact pre_inv_trans (pre_inv_bump_ne (by rw [h14]; decide))
          (pre_inv_bump_ne (by rw [hp]; decide))
    have hlt : sc.current < sc2.current := by
      rcases match_next_cases hmn with he | ⟨hp, he⟩
      · rw [he]
        exact Nat.lt_succ_self _
      · rw [he]
        show sc.current < sc.current + 1 + 1
        omega
    exact scan_step_ok_of hpre hlt (step_rest_add (by cases m <;> decide) h)
  by_cases h15 : sc.peek = '/'
  · by_cases h15b : ({ sc with current := sc.current + 1 } : Scanner).peek = '/'
    · have hne : ({ sc with current := sc.current + 1 } : Scanner).is_at_end =
          false := by
        have hlt := Scanner.lt_of_peek_ne_nul _ (by rw [h15b]; decide)
        simp only [Scanner.is_at_end, decide_eq_false_iff_not, not_le]
        exact hlt
      rw [scan_token_slash_slash h15 h15b hne] at h
      simp only [] at h
      rcases hbs : byteSliceGet
          (line_comment_loop { sc with current := sc.current + 1 + 1 }).source
          ((line_comment_loop { sc with current := sc.current + 1 + 1 }).start + 2)
          (line_comment_loop { sc with current := sc.current + 1 + 1 }).current
        with _ | comment
      · rw [hbs] at h
        exact absurd h (by simp)
      · rw [hbs] at h
        refine scan_step_ok_of (pre_inv_bump_ne (by rw [h15]; decide))
          (Nat.lt_succ_self _) ?_
        refine step_rest_comp_pre (pre_inv_bump_ne (by rw [h15b]; decide)) ?_
        exact step_rest_comp_pre (pre_inv_line_comment_loop _)
          (step_rest_add (by decide) h)
    · by_cases h15c : ({ sc with current := sc.current + 1 } : Scanner).peek = '*'
      · have hne : ({ sc with current := sc.current + 1 } : Scanner).is_at_end =
            false := by
          have hlt := Scanner.lt_of_peek_ne_nul _ (by rw [h15c]; decide)
          simp only [Scanner.is_at_end, decide_eq_false_iff_not, not_le]
          exact hlt
        rw [scan_token_slash_star h15 h15b h15c hne] at h
        simp only [] at h
        rcases hbs : byteSliceGet
            (block_loop { sc with current := sc.current + 1 + 1 }).source
            ((block_loop { sc with current := sc.current + 1 + 1 }).start + 2)
            ((block_loop { sc with current := sc.current + 1 + 1 }).current + 2 - 2)
          with _ | comment
        · rw [hbs] at h
          exact absurd h (by simp)
        · rw [hbs] at h
          refine scan_step_ok_of (pre_inv_bump_ne (by rw [h15]; decide))
            (Nat.lt_succ_self _) ?_
          refine step_rest_comp_pre (pre_inv_bump_ne (by rw [h15c]; decide)) ?_
          refine step_rest_comp_pre (pre_inv_block_loop _) ?_
          refine step_rest_comp_pre
            (pre_inv_block_adjust _ (block_loop_exit _)) ?_
          exact step_rest_add (by decide) h
      · rw [scan_token_slash_only h15 h15b h15c] at h
        exact scan_step_ok_of (pre_inv_bump_ne (by rw [h15]; decide))
          (Nat.lt_succ_self _) (step_rest_add (by decide) h)
  by_cases h16 : sc.peek = '"'
  · rw [scan_token_quote h16] at h
    exact scan_step_ok_of (pre_inv_bump_ne (by rw [h16]; decide))
      (Nat.lt_succ_self _) (handle_string_inv h)
  by_cases h17 : sc.peek = '\n'
  · rw [scan_token_newline h17] at h
    have hsc : sc' = { sc with current := sc.current + 1, line := sc.line + 1 } := by
      injection h with h2
      exact h2.symm
    rw [hsc]
    exact ⟨rfl, rfl, Nat.lt_succ_self _, Nat.le_succ _,
      line_inv_bump_nl h17, Or.inl rfl⟩
  by_cases h18 : sc.peek = ' ' ∨ sc.peek = '\r' ∨ sc.peek = '\t'
  · rw [scan_token_ws h18] at h
    have hsc : sc' = { sc with current := sc.current + 1 } := by
      injection h with h2
      exact h2.symm
    rw [hsc]
    refine ⟨rfl, rfl, Nat.lt_succ_self _, le_refl _, ?_, Or.inl rfl⟩
    rcases h18 with he | he | he <;>
      exact line_inv_bump_ne (by rw [he]; decide)
  by_cases h19 : is_digit sc.peek
  · rw [scan_token_digit h19] at h
    refine scan_step_ok_of (pre_inv_bump_ne ?_) (Nat.lt_succ_self _)
      (handle_number_inv h)
    intro he
    rw [he] at h19
    exact absurd h19 (by decide)
  by_cases h20 : is_alpha_numeric sc.peek
  · rw [scan_token_alpha (by simpa using h19) h20] at h
    refine scan_step_ok_of (pre_inv_bump_ne ?_) (Nat.lt_succ_self _)
      (handle_identifier_inv h)
    intro he
    rw [he] at h20
    exact absurd h20 (by decide)
  push_neg at h18
  obtain ⟨hw1, hw2, hw3⟩ := h18
  rw [scan_token_error
    (by intro c hc; fin_cases hc <;> assumption)
    (by simpa using h19) (by simpa using h20)] at h
  have hsc : sc' = Scanner.fmt_error { sc with current := sc.current + 1 } := by
    injection h with h2
    exact h2.symm
  rw [hsc]
  exact ⟨rfl, rfl, Nat.lt_succ_self _, le_refl _,
    fun hli => line_inv_bump_ne h17 hli, Or.inl rfl⟩

/-- Invariant of the whole scan loop: the source never changes, the line
counter only grows and keeps counting newlines, the loop only returns at
end of input, and the tokens appended during the loop have
non-decreasing lines, all between the initial and final line, and none
of them is EOF. -/
theorem scan_loop_inv (fuel : Nat) :
    ∀ sc scF : Scanner, scan_loop fuel sc = some scF →
      scF.source = sc.source ∧ sc.line ≤ scF.line ∧
      (line_inv sc → line_inv scF) ∧ scF.is_at_end = true ∧
      ∃ new, scF.tokens = sc.tokens ++ new ∧
        List.Pairwise (· ≤ ·) (new.map Token.line) ∧
        (∀ t ∈ new, sc.line ≤ t.line ∧ t.line ≤ scF.line ∧
          t.token_type ≠ TokenType.EOF) := by
  induction fuel with
  | zero =>
    intro sc scF h
    rw [scan_loop.eq_def] at h
    split at h
    · next hend =>
      have hsc : scF = sc := by
        injection h with h2
        exact h2.symm
      subst hsc
      exact ⟨rfl, le_refl _, fun hli => hli, by simpa using hend,
        [], by simp, by simp, by simp⟩
    · rw [if_pos rfl] at h
      exact absurd h (by simp)
  | succ n ih =>
    intro sc scF h
    rw [scan_loop.eq_def] at h
    split at h
    · next hend =>
      have hsc : scF = sc := by
        injection h with h2
        exact h2.symm
      subst hsc
      exact ⟨rfl, le_refl _, fun hli => hli, by simpa using hend,
        [], by simp, by simp, by simp⟩
    · rw [if_neg (Nat.succ_ne_zero n)] at h
      rcases hst : scan_token { sc with start := sc.current } with _ | sc1
      · rw [hst] at h
        exact absurd h (by simp)
      · rw [hst] at h
        simp only [Nat.add_sub_cancel] at h
        obtain ⟨j1, j2, j3, j4, j5, j6⟩ := scan_token_inv hst
        obtain ⟨k1, k2, k3, k4, new1, k5, k6, k7⟩ := ih sc1 scF h
        refine ⟨k1.trans j1, le_trans j4 k2, fun hli => k3 (j5 hli), k4, ?_⟩
        rcases j6 with ht | ⟨t, ht, htl, hte⟩
        · refine ⟨new1, by rw [k5, ht], k6, ?_⟩
          intro u hu
          obtain ⟨u1, u2, u3⟩ := k7 u hu
          exact ⟨le_trans j4 u1, u2, u3⟩
        · refine ⟨t :: new1, by rw [k5, ht]; simp, ?_, ?_⟩
          · rw [List.map_cons]
            rw [List.pairwise_cons]
            refine ⟨?_, k6⟩
            intro a ha
            simp only [List.mem_map] at ha
            obtain ⟨u, hu, rfl⟩ := ha
            exact le_trans (htl ▸ (k7 u hu).1) (le_refl _)
          · intro u hu
            rcases List.mem_cons.mp hu with rfl | hu2
            · exact ⟨htl ▸ j4, htl ▸ k2, hte⟩
            · obtain ⟨u1, u2, u3⟩ := k7 u hu2
              exact ⟨le_trans j4 u1, u2, u3⟩

/-- The initial scanner state satisfies the line-count invariant. -/
theorem line_inv_new (cs : List Char) : line_inv (Scanner.new cs) := by
  simp [line_inv, Scanner.new]

/-- Every completed scan's final state: line = 1 + total newline count,
and the pre-EOF tokens are non-EOF with non-decreasing lines in
[1, final line]. -/
theorem scan_tokens_shape (cs : List Char) (ts : List Token) (err : Bool)
    (h : scan_tokens cs = some (ts, err)) :
    ∃ pre fin, ts = pre ++ [⟨TokenType.EOF, [], Literal.null, fin⟩] ∧
      fin = 1 + cs.count '\n' ∧
      List.Pairwise (· ≤ ·) (pre.map Token.line) ∧
      (∀ t ∈ pre, 1 ≤ t.line ∧ t.line ≤ fin ∧
        t.token_type ≠ TokenType.EOF) := by
  unfold scan_tokens at h
  rcases hsl : scan_loop (cs.length + 1) (Scanner.new cs) with _ | scF
  · rw [hsl] at h
    exact absurd h (by simp)
  · rw [hsl] at h
    simp only [Option.map_some'] at h
    injection h with h2
    have hts : scF.tokens ++ [⟨TokenType.EOF, [], Literal.null, scF.line⟩] = ts :=
      congrArg Prod.fst h2
    obtain ⟨k1, k2, k3, k4, new1, k5, k6, k7⟩ :=
      scan_loop_inv (cs.length + 1) (Scanner.new cs) scF hsl
    have hfin : scF.line = 1 + cs.count '\n' := by
      have hli := k3 (line_inv_new cs)
      unfold line_inv at hli
      rw [k1] at hli
      simp only [Scanner.new] at hli
      rw [List.take_of_length_le ?hl] at hli
      case hl =>
        simp only [Scanner.is_at_end, decide_eq_true_eq, k1] at k4
        simp only [Scanner.new] at k4
        exact k4
      exact hli
    refine ⟨new1, scF.line, ?_, hfin, k6, ?_⟩
    · rw [← hts, k5]
      simp [Scanner.new]
    · intro t ht
      obtain ⟨u1, u2, u3⟩ := k7 t ht
      exact ⟨u1, u2, u3⟩

/-- C3 amended: whenever `scan_tokens` returns (it panics rather than
returning on inputs like "é+" — see the counterexample), the returned
sequence contains exactly one EOF token, it is the last token, and its
line is the final line count reached: 1 + the number of newlines in the
source. -/
theorem C3_eof_token (cs : List Char) (ts : List Token) (err : Bool)
    (h : scan_tokens cs = some (ts, err)) :
    (ts.filter (fun t => decide (t.token_type = TokenType.EOF))).length = 1 ∧
    ∃ tl, ts.getLast? = some tl ∧ tl.token_type = TokenType.EOF ∧
      tl.line = 1 + cs.count '\n' := by
  obtain ⟨pre, fin, rfl, hfin, hpw, hb⟩ := scan_tokens_shape cs ts err h
  constructor
  · rw [List.filter_append]
    have hnil : pre.filter (fun t => decide (t.token_type = TokenType.EOF)) = [] := by
      rw [List.filter_eq_nil]
      intro t ht
      simp only [decide_eq_true_eq]
      exact (hb t ht).2.2
    rw [hnil]
    simp
  · refine ⟨⟨TokenType.EOF, [], Literal.null, fin⟩, ?_, rfl, hfin⟩
    exact List.getLast?_concat _

unseal string_loop line_comment_loop block_loop skip_digits scan_frac ident_loop scan_loop in
/-- Witness for the amended C3 on the empty input. -/
theorem C3_eof_token_witness :
    (([⟨TokenType.EOF, [], Literal.null, 1⟩] : List Token).filter
      (fun t => decide (t.token_type = TokenType.EOF))).length = 1 ∧
    ∃ tl, ([⟨TokenType.EOF, [], Literal.null, 1⟩] : List Token).getLast? =
        some tl ∧ tl.token_type = TokenType.EOF ∧
      tl.line = 1 + ([] : List Char).count '\n' :=
  C3_eof_token [] [⟨TokenType.EOF, [], Literal.null, 1⟩] false (by rfl)

unseal string_loop line_comment_loop block_loop skip_digits scan_frac ident_loop scan_loop in
/-- C3 counterexample: on the input "é+" the scanner panics (modelled as
`none`) instead of returning a token sequence, so no EOF token is
produced at all. -/
theorem C3_counterexample : scan_tokens "é+".data = none := by rfl

/-- The whitespace test of the reconstruction claim: the four characters
`scan_token` consumes silently (space, carriage return, tab, newline). -/
def nonWs (c : Char) : Bool :=
  !(c == ' ' || c == '\r' || c == '\t' || c == '\n')

/-- Concatenation of the lexemes of a token list. -/
def concatLex : List Token → List Char
  | [] => []
  | t :: ts => t.lexeme ++ concatLex ts

/-- The input class of the reconstruction claim: characters the scanner
recognises, excluding the double quote (string literals are out of
scope for the claim). -/
def allowedChar (c : Char) : Bool :=
  decide (c ∈ ['(', ')', '\x7b', '\x7d', ',', '.', '-', '+', ';', '*', '/',
    '!', '=', '>', '<', ' ', '\r', '\t', '\n']) || is_digit c || is_alpha c

/-- No `//` or `/*` marker anywhere in the list: the "no comments" side
condition of the reconstruction claim. -/
def no_comment_at : List Char → Bool
  | [] => true
  | [_] => true
  | a :: b :: r => !(a == '/' && (b == '/' || b == '*')) && no_comment_at (b :: r)

/-- What one clean `scan_token` step guarantees: the source is unchanged,
the cursor advances within bounds, and the appended lexemes spell exactly
the consumed slice minus whitespace. -/
def clean_post (sc sc' : Scanner) : Prop :=
  sc'.source = sc.source ∧ sc.current < sc'.current ∧
  sc'.current ≤ sc.source.length ∧
  concatLex sc'.tokens = concatLex sc.tokens ++
    ((sc.source.drop sc.current).take (sc'.current - sc.current)).filter nonWs

/-- `concatLex` distributes over append. -/
theorem concatLex_append (a b : List Token) :
    concatLex (a ++ b) = concatLex a ++ concatLex b := by
  induction a with
  | nil => rfl
  | cons t ts ih => simp [concatLex, ih]

/-- Every element of a `takeWhile` satisfies the predicate. -/
theorem mem_takeWhile_pred {p : Char → Bool} {l : List Char} {a : Char}
    (h : a ∈ l.takeWhile p) : p a = true := by
  induction l with
  | nil => simp at h
  | cons b bs ih =>
    rw [List.takeWhile_cons] at h
    by_cases hb : p b = true
    · rw [if_pos hb] at h
      rcases List.mem_cons.mp h with rfl | h2
      · exact hb
      · exact ih h2
    · rw [if_neg hb] at h
      simp at h

/-- The head of a `dropWhile` remainder fails the predicate (with the NUL
default when the remainder is empty). -/
theorem dropWhile_head_false {p : Char → Bool} (hp : p '\x00' = false)
    (l : List Char) : p ((l.dropWhile p).head?.getD '\x00') = false := by
  induction l with
  | nil => simpa using hp
  | cons c t ih =>
    by_cases hc : p c = true
    · rw [List.dropWhile_cons_of_pos hc]
      exact ih
    · rw [List.dropWhile_cons_of_neg hc]
      simp only [List.head?_cons, Option.getD_some]
      exact Bool.eq_false_iff.mpr (fun he => hc he)

/-- `no_comment_at` passes to the tail. -/
theorem no_comment_tail {a : Char} {r : List Char}
    (h : no_comment_at (a :: r) = true) : no_comment_at r = true := by
  cases r with
  | nil => rfl
  | cons b s =>
    simp only [no_comment_at, Bool.and_eq_true] at h
    exact h.2

/-- `no_comment_at` passes to any suffix. -/
theorem no_comment_drop {l : List Char} (h : no_comment_at l = true) (k : Nat) :
    no_comment_at (l.drop k) = true := by
  induction k generalizing l with
  | zero => simpa using h
  | succ n ih =>
    cases l with
    | nil => simpa using h
    | cons a r =>
      rw [List.drop_succ_cons]
      exact ih (no_comment_tail h)

/-- After a slash, `no_comment_at` forbids a slash or a star. -/
theorem no_comment_head {b : Char} {r : List Char}
    (h : no_comment_at ('/' :: b :: r) = true) :
    b ≠ '/' ∧ b ≠ '*' := by
  simp only [no_comment_at, Bool.and_eq_true, Bool.not_eq_true'] at h
  have h1 := h.1
  constructor
  · intro he
    rw [he] at h1
    exact absurd h1 (by decide)
  · intro he
    rw [he] at h1
    exact absurd h1 (by decide)

/-- Letters and the underscore are ASCII. -/
theorem ascii_of_alpha {c : Char} (h : is_alpha c = true) : c.toNat < 128 := by
  simp only [is_alpha, decide_eq_true_eq] at h
  rcases h with ⟨_, h2⟩ | ⟨_, h2⟩ | h2
  · have h4 : c.val.toNat ≤ ('z' : Char).val.toNat := Char.le_def.mp h2
    have h3 : ('z' : Char).val.toNat = 122 := by decide
    simp only [Char.toNat]
    omega
  · have h4 : c.val.toNat ≤ ('Z' : Char).val.toNat := Char.le_def.mp h2
    have h3 : ('Z' : Char).val.toNat = 90 := by decide
    simp only [Char.toNat]
    omega
  · rw [h2]
    decide

/-- Every allowed char is ASCII, so the byte-indexed lexeme slices are
exact on clean inputs. -/
theorem ascii_of_allowed {c : Char} (h : allowedChar c = true) :
    c.toNat < 128 := by
  simp only [allowedChar, Bool.or_eq_true, decide_eq_true_eq] at h
  rcases h with (hm | hdg) | hal
  · fin_cases hm <;> decide
  · exact ascii_of_digit hdg
  · exact ascii_of_alpha hal

/-- A letter or underscore is not a digit. -/
theorem not_digit_of_alpha {c : Char} (h : is_alpha c = true) :
    is_digit c = false := by
  by_contra hc
  have hdg : is_digit c = true := by
    revert hc
    cases is_digit c <;> simp
  simp only [is_digit, decide_eq_true_eq] at hdg
  simp only [is_alpha, decide_eq_true_eq] at h
  have h9 : c.val.toNat ≤ ('9' : Char).val.toNat := Char.le_def.mp hdg.2
  have h57 : ('9' : Char).val.toNat = 57 := by decide
  rcases h with ⟨h2, _⟩ | ⟨h2, _⟩ | h2
  · have ha : ('a' : Char).val.toNat ≤ c.val.toNat := Char.le_def.mp h2
    have : ('a' : Char).val.toNat = 97 := by decide
    omega
  · have ha : ('A' : Char).val.toNat ≤ c.val.toNat := Char.le_def.mp h2
    have : ('A' : Char).val.toNat = 65 := by decide
    omega
  · rw [h2] at hdg
    exact absurd hdg.2 (by decide)

/-- Digits are alphanumeric. -/
theorem alnum_of_digit {c : Char} (h : is_digit c = true) :
    is_alpha_numeric c = true := by
  simp [is_alpha_numeric, h]

/-- Alphanumeric characters are not whitespace. -/
theorem nonWs_of_alnum {c : Char} (h : is_alpha_numeric c = true) :
    nonWs c = true := by
  have hge : 48 ≤ c.val.toNat := by
    simp only [is_alpha_numeric, is_digit, is_alpha, Bool.or_eq_true,
      decide_eq_true_eq] at h
    rcases h with h | (⟨h1, _⟩ | ⟨h1, _⟩ | h1)
    · have h4 : ('0' : Char).val.toNat ≤ c.val.toNat := Char.le_def.mp h.1
      have h3 : ('0' : Char).val.toNat = 48 := by decide
      omega
    · have h4 : ('a' : Char).val.toNat ≤ c.val.toNat := Char.le_def.mp h1
      have h3 : ('a' : Char).val.toNat = 97 := by decide
      omega
    · have h4 : ('A' : Char).val.toNat ≤ c.val.toNat := Char.le_def.mp h1
      have h3 : ('A' : Char).val.toNat = 65 := by decide
      omega
    · rw [h1]
      decide
  simp only [nonWs, Bool.not_eq_true', Bool.or_eq_false_iff]
  refine ⟨⟨⟨?_, ?_⟩, ?_⟩, ?_⟩ <;>
    · rw [beq_eq_false_iff_ne]
      intro he
      rw [he] at hge
      exact absurd hge (by decide)

/-- Digits are not whitespace. -/
theorem nonWs_of_digit {c : Char} (h : is_digit c = true) : nonWs c = true :=
  nonWs_of_alnum (alnum_of_digit h)

/-- On ASCII sources, `add_token` after a one-char advance appends a token
whose lexeme is exactly that char. -/
theorem add_token_clean (sc : Scanner) (c : Char) (t : List Char)
    (tt : TokenType) (lit : Literal)
    (hstart : sc.start = sc.current)
    (hd : sc.source.drop sc.current = c :: t)
    (hascii : ∀ x ∈ sc.source, x.toNat < 128) :
    Scanner.add_token { sc with current := sc.current + 1 } tt lit =
      some { sc with
             current := sc.current + 1,
             tokens := sc.tokens ++ [⟨tt, [c], lit, sc.line⟩] } := by
  have hlt : sc.current < sc.source.length := by
    by_contra hc
    rw [List.drop_of_length_le (Nat.le_of_not_lt hc)] at hd
    exact absurd hd (by simp)
  have hlex : byteSliceGet sc.source sc.start (sc.current + 1) = some [c] := by
    rw [hstart, byteSliceGet_ascii sc.source sc.current (sc.current + 1)
      (fun x hx => hascii x (List.mem_of_mem_take hx)) (by omega) (by omega)]
    rw [Nat.add_sub_cancel_left, hd]
    rfl
  simp only [Scanner.add_token, Scanner.get_lexeme, hlex, Option.map_some']

/-- On ASCII sources, `add_token` after a two-char advance appends a token
whose lexeme is exactly those two chars. -/
theorem add_token_clean2 (sc : Scanner) (c c2 : Char) (t : List Char)
    (tt : TokenType) (lit : Literal)
    (hstart : sc.start = sc.current)
    (hd : sc.source.drop sc.current = c :: c2 :: t)
    (hascii : ∀ x ∈ sc.source, x.toNat < 128) :
    Scanner.add_token { sc with current := sc.current + 1 + 1 } tt lit =
      some { sc with
             current := sc.current + 1 + 1,
             tokens := sc.tokens ++ [⟨tt, [c, c2], lit, sc.line⟩] } := by
  have hlt : sc.current + 1 < sc.source.length := by
    have h2 := congrArg List.length hd
    rw [List.length_drop] at h2
    simp only [List.length_cons] at h2
    omega
  have hlex : byteSliceGet sc.source sc.start (sc.current + 1 + 1) =
      some [c, c2] := by
    rw [hstart, byteSliceGet_ascii sc.source sc.current (sc.current + 1 + 1)
      (fun x hx => hascii x (List.mem_of_mem_take hx)) (by omega) (by omega)]
    rw [show sc.current + 1 + 1 - sc.current = 2 from by omega, hd]
    rfl
  simp only [Scanner.add_token, Scanner.get_lexeme, hlex, Option.map_some']

/-- Clean-step postcondition for a step that consumed one non-whitespace
char and appended a token with that lexeme. -/
theorem clean_post_one (sc : Scanner) (c : Char) (t : List Char)
    (tt : TokenType) (lit : Literal)
    (hd : sc.source.drop sc.current = c :: t)
    (hw : nonWs c = true) :
    clean_post sc { sc with
                    current := sc.current + 1,
                    tokens := sc.tokens ++ [⟨tt, [c], lit, sc.line⟩] } := by
  have hlt : sc.current < sc.source.length := by
    by_contra hc
    rw [List.drop_of_length_le (Nat.le_of_not_lt hc)] at hd
    exact absurd hd (by simp)
  refine ⟨rfl, Nat.lt_succ_self _, (by omega : sc.current + 1 ≤ sc.source.length), ?_⟩
  show concatLex (sc.tokens ++ [⟨tt, [c], lit, sc.line⟩]) =
    concatLex sc.tokens ++
      ((sc.source.drop sc.current).take (sc.current + 1 - sc.current)).filter nonWs
  rw [concatLex_append, Nat.add_sub_cancel_left, hd]
  have htake : (c :: t).take 1 = [c] := rfl
  rw [htake]
  simp [concatLex, List.filter_cons, hw]

/-- Clean-step postcondition for a step that consumed two non-whitespace
chars and appended a token with that lexeme. -/
theorem clean_post_two (sc : Scanner) (c c2 : Char) (t : List Char)
    (tt : TokenType) (lit : Literal)
    (hd : sc.source.drop sc.current = c :: c2 :: t)
    (hw : nonWs c = true) (hw2 : nonWs c2 = true) :
    clean_post sc { sc with
                    current := sc.current + 1 + 1,
                    tokens := sc.tokens ++ [⟨tt, [c, c2], lit, sc.line⟩] } := by
  have hlt : sc.current + 1 < sc.source.length := by
    have h2 := congrArg List.length hd
    rw [List.length_drop] at h2
    simp only [List.length_cons] at h2
    omega
  refine ⟨rfl, (by omega : sc.current < sc.current + 1 + 1),
    (by omega : sc.current + 1 + 1 ≤ sc.source.length), ?_⟩
  show concatLex (sc.tokens ++ [⟨tt, [c, c2], lit, sc.line⟩]) =
    concatLex sc.tokens ++
      ((sc.source.drop sc.current).take (sc.current + 1 + 1 - sc.current)).filter nonWs
  rw [concatLex_append, show sc.current + 1 + 1 - sc.current = 2 from by omega, hd]
  have htake : (c :: c2 :: t).take 2 = [c, c2] := rfl
  rw [htake]
  simp [concatLex, List.filter_cons, hw, hw2]

/-- Clean-step postcondition for a silent one-whitespace-char step. -/
theorem clean_post_skip1 (sc : Scanner) (c : Char) (t : List Char)
    (hd : sc.source.drop sc.current = c :: t)
    (hw : nonWs c = false) :
    clean_post sc { sc with current := sc.current + 1 } := by
  have hlt : sc.current < sc.source.length := by
    by_contra hc
    rw [List.drop_of_length_le (Nat.le_of_not_lt hc)] at hd
    exact absurd hd (by simp)
  refine ⟨rfl, Nat.lt_succ_self _, (by omega : sc.current + 1 ≤ sc.source.length), ?_⟩
  show concatLex sc.tokens =
    concatLex sc.tokens ++
      ((sc.source.drop sc.current).take (sc.current + 1 - sc.current)).filter nonWs
  rw [Nat.add_sub_cancel_left, hd]
  have htake : (c :: t).take 1 = [c] := rfl
  rw [htake]
  simp [List.filter_cons, hw]

/-- Clean-step postcondition for the newline step (line counter bumped,
nothing emitted). -/
theorem clean_post_skipnl (sc : Scanner) (c : Char) (t : List Char)
    (hd : sc.source.drop sc.current = c :: t)
    (hw : nonWs c = false) :
    clean_post sc { sc with
                    current := sc.current + 1,
                    line := sc.line + 1 } := by
  have hlt : sc.current < sc.source.length := by
    by_contra hc
    rw [List.drop_of_length_le (Nat.le_of_not_lt hc)] at hd
    exact absurd hd (by simp)
  refine ⟨rfl, Nat.lt_succ_self _, (by omega : sc.current + 1 ≤ sc.source.length), ?_⟩
  show concatLex sc.tokens =
    concatLex sc.tokens ++
      ((sc.source.drop sc.current).take (sc.current + 1 - sc.current)).filter nonWs
  rw [Nat.add_sub_cancel_left, hd]
  have htake : (c :: t).take 1 = [c] := rfl
  rw [htake]
  simp [List.filter_cons, hw]

/-- Clean-step postcondition for a multi-char token step: the cursor lands
at `n` and the appended lexeme spells the consumed slice, all of it
non-whitespace. -/
theorem clean_post_token (sc : Scanner) (lx : List Char) (tt : TokenType)
    (lit : Literal) (ln : Nat) (n : Nat)
    (hcur : sc.current < n) (hle : n ≤ sc.source.length)
    (htake : (sc.source.drop sc.current).take (n - sc.current) = lx)
    (hw : ∀ x ∈ lx, nonWs x = true) :
    clean_post sc { sc with
                    current := n,
                    tokens := sc.tokens ++ [⟨tt, lx, lit, ln⟩] } := by
  refine ⟨rfl, hcur, hle, ?_⟩
  show concatLex (sc.tokens ++ [⟨tt, lx, lit, ln⟩]) =
    concatLex sc.tokens ++
      ((sc.source.drop sc.current).take (n - sc.current)).filter nonWs
  rw [concatLex_append, htake, List.filter_eq_self.mpr hw]
  simp [concatLex]

/-- `handle_identifier` on an alphanumeric run: consume the run and emit
one token whose lexeme is the run and whose type comes from the keyword
table. -/
theorem handle_identifier_run (sc : Scanner) (d : Char) (idTail post : List Char)
    (hcur : sc.current = sc.start + 1)
    (hd : sc.source.drop sc.start = d :: (idTail ++ post))
    (hid : ∀ c ∈ idTail, is_alpha_numeric c = true)
    (hpd : is_alpha_numeric (post.head?.getD '\x00') = false)
    (hascii : ∀ c ∈ sc.source, c.toNat < 128) :
    handle_identifier sc =
      some { sc with
             current := sc.start + 1 + idTail.length,
             tokens := sc.tokens ++
               [⟨keyword_type (d :: idTail), d :: idTail, .null, sc.line⟩] } := by
  have hdc : sc.source.drop sc.current = idTail ++ post := by
    rw [hcur, ← List.tail_drop, hd]
    rfl
  have hlen : sc.start + 1 + idTail.length + post.length ≤ sc.source.length := by
    have h1 : sc.start < sc.source.length := by
      by_contra hc
      rw [List.drop_of_length_le (Nat.le_of_not_lt hc)] at hd
      exact absurd hd (by simp)
    have h2 := congrArg List.length hd
    rw [List.length_drop] at h2
    simp at h2
    omega
  have htw : (idTail ++ post).takeWhile is_alpha_numeric = idTail := by
    cases post with
    | nil => simpa using List.takeWhile_eq_self_iff.mpr hid
    | cons q qs => exact takeWhile_append_cons _ _ _ hid (by simpa using hpd)
  unfold handle_identifier
  rw [ident_loop_spec, hdc, htw]
  simp only []
  have hlex : byteSliceGet sc.source sc.start (sc.current + idTail.length) =
      some (d :: idTail) := by
    rw [hcur]
    rw [byteSliceGet_ascii sc.source sc.start (sc.start + 1 + idTail.length)
      (fun x hx => hascii x (List.mem_of_mem_take hx)) (by omega) (by omega)]
    rw [show sc.start + 1 + idTail.length - sc.start = idTail.length + 1 from by
      omega]
    rw [hd, List.take_succ_cons, List.take_left idTail post]
  simp only [Scanner.get_lexeme, Scanner.add_token, hlex, Option.map_some']
  refine congrArg some (Scanner.eq_of_fields rfl rfl rfl (by simp; omega) rfl rfl)

/-- Clean step through a one-or-two-char operator head. -/
theorem clean_step_two_op (sc : Scanner) (c : Char) (t : List Char)
    (t1 t2 : TokenType)
    (hstart : sc.start = sc.current)
    (hd : sc.source.drop sc.current = c :: t)
    (hascii : ∀ x ∈ sc.source, x.toNat < 128)
    (hw : nonWs c = true)
    (hmem : (c, t1, t2) ∈ [('!', TokenType.BANG_EQUAL, TokenType.BANG),
      ('=', TokenType.EQUAL_EQUAL, TokenType.EQUAL),
      ('>', TokenType.GREATER_EQUAL, TokenType.GREATER),
      ('<', TokenType.LESS_EQUAL, TokenType.LESS)]) :
    ∃ sc', scan_token sc = some sc' ∧ clean_post sc sc' := by
  have hpk : sc.peek = c := Scanner.peek_of_drop hd
  rw [scan_token_two_op hpk hmem]
  rcases t with _ | ⟨d, t2s⟩
  · have hlen1 := congrArg List.length hd
    rw [List.length_drop] at hlen1
    simp only [List.length_cons, List.length_nil] at hlen1
    have hend : ({ sc with current := sc.current + 1 } : Scanner).is_at_end =
        true := by
      simp only [Scanner.is_at_end, decide_eq_true_eq]
      omega
    rw [Scanner.match_next_at_end hend]
    simp only []
    rw [add_token_clean sc c [] _ _ hstart hd hascii]
    exact ⟨_, rfl, clean_post_one sc c [] _ _ hd hw⟩
  · have hdrop1 : sc.source.drop (sc.current + 1) = d :: t2s := by
      rw [← List.tail_drop, hd]
      rfl
    by_cases heq : d = '='
    · subst heq
      have hp2 : ({ sc with current := sc.current + 1 } : Scanner).peek = '=' :=
        @Scanner.peek_of_drop { sc with current := sc.current + 1 } '=' t2s hdrop1
      have hne2 : ({ sc with current := sc.current + 1 } : Scanner).is_at_end =
          false :=
        @Scanner.not_at_end_of_drop { sc with current := sc.current + 1 } '='
          t2s hdrop1
      rw [Scanner.match_next_pos hp2 hne2]
      simp only []
      rw [add_token_clean2 sc c '=' t2s _ _ hstart hd hascii]
      exact ⟨_, rfl, clean_post_two sc c '=' t2s _ _ hd hw (by decide)⟩
    · have hp2 : ({ sc with current := sc.current + 1 } : Scanner).peek = d :=
        @Scanner.peek_of_drop { sc with current := sc.current + 1 } d t2s hdrop1
      rw [Scanner.match_next_ne (by rw [hp2]; exact heq)]
      simp only []
      rw [add_token_clean sc c (d :: t2s) _ _ hstart hd hascii]
      exact ⟨_, rfl, clean_post_one sc c (d :: t2s) _ _ hd hw⟩

/-- Clean step through a slash head: with no comment marker following, a
bare SLASH token is emitted. -/
theorem clean_step_slash (sc : Scanner) (t : List Char)
    (hstart : sc.start = sc.current)
    (hd : sc.source.drop sc.current = '/' :: t)
    (hascii : ∀ x ∈ sc.source, x.toNat < 128)
    (hnc : no_comment_at (sc.source.drop sc.current) = true) :
    ∃ sc', scan_token sc = some sc' ∧ clean_post sc sc' := by
  have hpk : sc.peek = '/' := Scanner.peek_of_drop hd
  rcases t with _ | ⟨d, t2⟩
  · have hlen1 := congrArg List.length hd
    rw [List.length_drop] at hlen1
    simp only [List.length_cons, List.length_nil] at hlen1
    have hp2 : ({ sc with current := sc.current + 1 } : Scanner).peek = '\x00' := by
      apply Scanner.peek_eq_nul
      show sc.source.length ≤ sc.current + 1
      omega
    rw [scan_token_slash_only hpk (by rw [hp2]; decide) (by rw [hp2]; decide)]
    rw [add_token_clean sc '/' [] _ _ hstart hd hascii]
    exact ⟨_, rfl, clean_post_one sc '/' [] _ _ hd (by decide)⟩
  · rw [hd] at hnc
    obtain ⟨hns, hnst⟩ := no_comment_head hnc
    have hdrop1 : sc.source.drop (sc.current + 1) = d :: t2 := by
      rw [← List.tail_drop, hd]
      rfl
    have hp2 : ({ sc with current := sc.current + 1 } : Scanner).peek = d :=
      @Scanner.peek_of_drop { sc with current := sc.current + 1 } d t2 hdrop1
    rw [scan_token_slash_only hpk (by rw [hp2]; exact hns)
      (by rw [hp2]; exact hnst)]
    rw [add_token_clean sc '/' (d :: t2) _ _ hstart hd hascii]
    exact ⟨_, rfl, clean_post_one sc '/' (d :: t2) _ _ hd (by decide)⟩

/-- A list's prefix of the length of its `takeWhile` run is that run. -/
theorem take_takeWhile_len (p : Char → Bool) (t : List Char) :
    t.take (t.takeWhile p).length = t.takeWhile p := by
  induction t with
  | nil => rfl
  | cons a l ih =>
    rw [List.takeWhile_cons]
    by_cases ha : p a = true
    · rw [if_pos ha]
      simp only [List.length_cons, List.take_succ_cons]
      rw [ih]
    · rw [if_neg ha]
      rfl

/-- Taking past a known decomposition point splits the take. -/
theorem take_split (t l1 l2 : List Char) (h : t = l1 ++ l2) (k : Nat) :
    t.take (l1.length + k) = l1 ++ l2.take k := by
  subst h
  exact List.take_append k

/-- Clean step through a digit head: the whole numeric literal (with an
optional fractional part) is consumed and its lexeme token emitted. -/
theorem clean_step_digit (sc : Scanner) (c : Char) (t : List Char)
    (hstart : sc.start = sc.current)
    (hd : sc.source.drop sc.current = c :: t)
    (hascii : ∀ x ∈ sc.source, x.toNat < 128)
    (hdg : is_digit c = true) :
    ∃ sc', scan_token sc = some sc' ∧ clean_post sc sc' := by
  have hpk : sc.peek = c := Scanner.peek_of_drop hd
  have hlt : sc.current < sc.source.length := by
    by_contra hc
    rw [List.drop_of_length_le (Nat.le_of_not_lt hc)] at hd
    exact absurd hd (by simp)
  have hlen1 := congrArg List.length hd
  rw [List.length_drop] at hlen1
  simp only [List.length_cons] at hlen1
  have hlen2 : sc.source.length = sc.current + 1 + t.length := by omega
  have hsplit : t.takeWhile is_digit ++ t.dropWhile is_digit = t :=
    List.takeWhile_append_dropWhile is_digit t
  have hlsp := congrArg List.length hsplit
  rw [List.length_append] at hlsp
  rw [scan_token_digit (by rw [hpk]; exact hdg)]
  by_cases hdot : (t.dropWhile is_digit).head?.getD '\x00' = '.' ∧
      is_digit ((((t.dropWhile is_digit).drop 1).head?).getD '\x00') = true
  · obtain ⟨hdot1, hdot2⟩ := hdot
    rcases hrest : t.dropWhile is_digit with _ | ⟨q, r⟩
    · rw [hrest] at hdot1
      exact absurd hdot1 (by decide)
    · rw [hrest] at hdot1 hdot2
      simp only [List.head?_cons, Option.getD_some] at hdot1
      subst hdot1
      have hdot2' : is_digit (r.head?.getD '\x00') = true := hdot2
      have hfr : r.takeWhile is_digit ≠ [] := by
        rcases r with _ | ⟨f, fr⟩
        · exact absurd hdot2' (by decide)
        · simp only [List.head?_cons, Option.getD_some] at hdot2'
          rw [List.takeWhile_cons, if_pos hdot2']
          simp
      have hr : r.takeWhile is_digit ++ r.dropWhile is_digit = r :=
        List.takeWhile_append_dropWhile is_digit r
      have hlr := congrArg List.length hr
      rw [List.length_append] at hlr
      have ht2 : t = t.takeWhile is_digit ++ '.' :: r := by
        conv_lhs => rw [← hsplit, hrest]
      have hlt2 := congrArg List.length ht2
      rw [List.length_append, List.length_cons] at hlt2
      rw [handle_number_frac { sc with current := sc.current + 1 } c
        (t.takeWhile is_digit) (r.takeWhile is_digit) (r.dropWhile is_digit)
        (show sc.current + 1 = sc.start + 1 from by rw [hstart])
        (show sc.source.drop sc.start = c :: (t.takeWhile is_digit ++
            '.' :: (r.takeWhile is_digit ++ r.dropWhile is_digit)) from by
          rw [hstart, hd, hr, ← hrest, hsplit])
        hdg (fun x hx => mem_takeWhile_pred hx) hfr
        (fun x hx => mem_takeWhile_pred hx)
        (dropWhile_head_false (by decide) r)
        (fun x hx => hascii x (List.mem_of_mem_take hx))]
      refine ⟨_, rfl, ?_⟩
      exact clean_post_token sc
        (c :: (t.takeWhile is_digit ++ '.' :: r.takeWhile is_digit)) .NUMBER _ _
        (sc.start + 1 + (t.takeWhile is_digit).length + 1 +
          (r.takeWhile is_digit).length)
        (by rw [hstart]; omega)
        (by rw [hstart]; omega)
        (by rw [hstart,
            show sc.current + 1 + (t.takeWhile is_digit).length + 1 +
                (r.takeWhile is_digit).length - sc.current =
              ((t.takeWhile is_digit).length +
                (1 + (r.takeWhile is_digit).length)) + 1 from by omega,
            hd, List.take_succ_cons,
            take_split t (t.takeWhile is_digit) ('.' :: r) ht2
              (1 + (r.takeWhile is_digit).length),
            show (1 + (r.takeWhile is_digit).length) =
              (r.takeWhile is_digit).length + 1 from by omega,
            List.take_succ_cons, take_takeWhile_len])
        (by intro x hx
            rcases List.mem_cons.mp hx with rfl | hx2
            · exact nonWs_of_digit hdg
            rcases List.mem_append.mp hx2 with hx3 | hx4
            · exact nonWs_of_digit (mem_takeWhile_pred hx3)
            rcases List.mem_cons.mp hx4 with rfl | hx5
            · decide
            · exact nonWs_of_digit (mem_takeWhile_pred hx5))
  · rw [handle_number_nodot { sc with current := sc.current + 1 } c
      (t.takeWhile is_digit) (t.dropWhile is_digit)
      (show sc.current + 1 = sc.start + 1 from by rw [hstart])
      (show sc.source.drop sc.start = c :: (t.takeWhile is_digit ++
          t.dropWhile is_digit) from by rw [hstart, hd, hsplit])
      hdg (fun x hx => mem_takeWhile_pred hx)
      (dropWhile_head_false (by decide) t)
      hdot
      (fun x hx => hascii x (List.mem_of_mem_take hx))]
    refine ⟨_, rfl, ?_⟩
    exact clean_post_token sc (c :: t.takeWhile is_digit) .NUMBER _ _
      (sc.start + 1 + (t.takeWhile is_digit).length)
      (by rw [hstart]; omega)
      (by rw [hstart]; omega)
      (by rw [hstart,
          show sc.current + 1 + (t.takeWhile is_digit).length - sc.current =
            (t.takeWhile is_digit).length + 1 from by omega,
          hd, List.take_succ_cons, take_takeWhile_len])
      (by intro x hx
          rcases List.mem_cons.mp hx with rfl | hx2
          · exact nonWs_of_digit hdg
          · exact nonWs_of_digit (mem_takeWhile_pred hx2))

/-- Clean step through a letter or underscore head: the whole identifier
run is consumed and its lexeme token emitted. -/
theorem clean_step_alpha (sc : Scanner) (c : Char) (t : List Char)
    (hstart : sc.start = sc.current)
    (hd : sc.source.drop sc.current = c :: t)
    (hascii : ∀ x ∈ sc.source, x.toNat < 128)
    (hal : is_alpha c = true) :
    ∃ sc', scan_token sc = some sc' ∧ clean_post sc sc' := by
  have hpk : sc.peek = c := Scanner.peek_of_drop hd
  have hlt : sc.current < sc.source.length := by
    by_contra hc
    rw [List.drop_of_length_le (Nat.le_of_not_lt hc)] at hd
    exact absurd hd (by simp)
  have hlen1 := congrArg List.length hd
  rw [List.length_drop] at hlen1
  simp only [List.length_cons] at hlen1
  have hlen2 : sc.source.length = sc.current + 1 + t.length := by omega
  have hsplit : t.takeWhile is_alpha_numeric ++ t.dropWhile is_alpha_numeric =
      t := List.takeWhile_append_dropWhile is_alpha_numeric t
  have hlsp := congrArg List.length hsplit
  rw [List.length_append] at hlsp
  rw [scan_token_alpha (by rw [hpk]; exact not_digit_of_alpha hal)
    (by rw [hpk]; simp [is_alpha_numeric, hal])]
  rw [handle_identifier_run { sc with current := sc.current + 1 } c
    (t.takeWhile is_alpha_numeric) (t.dropWhile is_alpha_numeric)
    (show sc.current + 1 = sc.start + 1 from by rw [hstart])
    (show sc.source.drop sc.start = c :: (t.takeWhile is_alpha_numeric ++
        t.dropWhile is_alpha_numeric) from by rw [hstart, hd, hsplit])
    (fun x hx => mem_takeWhile_pred hx)
    (dropWhile_head_false (by decide) t)
    hascii]
  refine ⟨_, rfl, ?_⟩
  exact clean_post_token sc (c :: t.takeWhile is_alpha_numeric) _ _ _
    (sc.start + 1 + (t.takeWhile is_alpha_numeric).length)
    (by rw [hstart]; omega)
    (by rw [hstart]; omega)
    (by rw [hstart,
        show sc.current + 1 + (t.takeWhile is_alpha_numeric).length -
          sc.current = (t.takeWhile is_alpha_numeric).length + 1 from by omega,
        hd, List.take_succ_cons, take_takeWhile_len])
    (by intro x hx
        rcases List.mem_cons.mp hx with rfl | hx2
        · exact nonWs_of_alnum (by simp [is_alpha_numeric, hal])
        · exact nonWs_of_alnum (mem_takeWhile_pred hx2))

/-- One clean `scan_token` step: on an allowed-character, comment-free
remainder the step succeeds and satisfies `clean_post` — the appended
lexemes spell exactly the consumed slice minus whitespace. -/
theorem clean_step (sc : Scanner) (c : Char) (t : List Char)
    (hstart : sc.start = sc.current)
    (hd : sc.source.drop sc.current = c :: t)
    (hall : ∀ x ∈ sc.source, allowedChar x = true)
    (hnc : no_comment_at (sc.source.drop sc.current) = true) :
    ∃ sc', scan_token sc = some sc' ∧ clean_post sc sc' := by
  have hascii : ∀ x ∈ sc.source, x.toNat < 128 := fun x hx =>
    ascii_of_allowed (hall x hx)
  have hpk : sc.peek = c := Scanner.peek_of_drop hd
  have hca : allowedChar c = true :=
    hall c (List.drop_subset sc.current sc.source
      (by rw [hd]; exact List.mem_cons_self c t))
  by_cases h1 : c = '('
  · subst h1
    rw [@scan_token_simple _ _ TokenType.LEFT_PAREN hpk (by decide),
      add_token_clean sc _ t _ _ hstart hd hascii]
    exact ⟨_, rfl, clean_post_one sc _ t _ _ hd (by decide)⟩
  by_cases h2 : c = ')'
  · subst h2
    rw [@scan_token_simple _ _ TokenType.RIGHT_PAREN hpk (by decide),
      add_token_clean sc _ t _ _ hstart hd hascii]
    exact ⟨_, rfl, clean_post_one sc _ t _ _ hd (by decide)⟩
  by_cases h3 : c = '\x7b'
  · subst h3
    rw [@scan_token_simple _ _ TokenType.LEFT_BRACE hpk (by decide),
      add_token_clean sc _ t _ _ hstart hd hascii]
    exact ⟨_, rfl, clean_post_one sc _ t _ _ hd (by decide)⟩
  by_cases h4 : c = '\x7d'
  · subst h4
    rw [@scan_token_simple _ _ TokenType.RIGHT_BRACE hpk (by decide),
      add_token_clean sc _ t _ _ hstart hd hascii]
    exact ⟨_, rfl, clean_post_one sc _ t _ _ hd (by decide)⟩
  by_cases h5 : c = ','
  · subst h5
    rw [@scan_token_simple _ _ TokenType.COMMA hpk (by decide),
      add_token_clean sc _ t _ _ hstart hd hascii]
    exact ⟨_, rfl, clean_post_one sc _ t _ _ hd (by decide)⟩
  by_cases h6 : c = '.'
  · subst h6
    rw [@scan_token_simple _ _ TokenType.DOT hpk (by decide),
      add_token_clean sc _ t _ _ hstart hd hascii]
    exact ⟨_, rfl, clean_post_one sc _ t _ _ hd (by decide)⟩
  by_cases h7 : c = '-'
  · subst h7
    rw [@scan_token_simple _ _ TokenType.MINUS hpk (by decide),
      add_token_clean sc _ t _ _ hstart hd hascii]
    exact ⟨_, rfl, clean_post_one sc _ t _ _ hd (by decide)⟩
  by_cases h8 : c = '+'
  · subst h8
    rw [@scan_token_simple _ _ TokenType.PLUS hpk (by decide),
      add_token_clean sc _ t _ _ hstart hd hascii]
    exact ⟨_, rfl, clean_post_one sc _ t _ _ hd (by decide)⟩
  by_cases h9 : c = ';'
  · subst h9
    rw [@scan_token_simple _ _ TokenType.SEMICOLON hpk (by decide),
      add_token_clean sc _ t _ _ hstart hd hascii]
    exact ⟨_, rfl, clean_post_one sc _ t _ _ hd (by decide)⟩
  by_cases h10 : c = '*'
  · subst h10
    rw [@scan_token_simple _ _ TokenType.STAR hpk (by decide),
      add_token_clean sc _ t _ _ hstart hd hascii]
    exact ⟨_, rfl, clean_post_one sc _ t _ _ hd (by decide)⟩
  by_cases h11 : c = '!'
  · subst h11
    exact clean_step_two_op sc '!' t TokenType.BANG_EQUAL TokenType.BANG hstart hd hascii (by decide) (by decide)
  by_cases h12 : c = '='
  · subst h12
    exact clean_step_two_op sc '=' t TokenType.EQUAL_EQUAL TokenType.EQUAL hstart hd hascii (by decide) (by decide)
  by_cases h13 : c = '>'
  · subst h13
    exact clean_step_two_op sc '>' t TokenType.GREATER_EQUAL TokenType.GREATER hstart hd hascii (by decide) (by decide)
  by_cases h14 : c = '<'
  · subst h14
    exact clean_step_two_op sc '<' t TokenType.LESS_EQUAL TokenType.LESS hstart hd hascii (by decide) (by decide)
  by_cases h15 : c = '/'
  · subst h15
    exact clean_step_slash sc t hstart hd hascii hnc
  by_cases h17 : c = '\n'
  · subst h17
    rw [scan_token_newline hpk]
    exact ⟨_, rfl, clean_post_skipnl sc _ t hd (by decide)⟩
  by_cases h18 : c = ' ' ∨ c = '\r' ∨ c = '\t'
  · rw [scan_token_ws (by rw [hpk]; exact h18)]
    refine ⟨_, rfl, clean_post_skip1 sc c t hd ?_⟩
    rcases h18 with h | h | h <;> (rw [h]; decide)
  by_cases h19 : is_digit c
  · exact clean_step_digit sc c t hstart hd hascii h19
  have hal : is_alpha c = true := by
    simp only [allowedChar, Bool.or_eq_true, decide_eq_true_eq] at hca
    rcases hca with (hm | hdg) | halx
    · exfalso
      fin_cases hm <;> simp_all
    · exact absurd hdg h19
    · exact halx
  exact clean_step_alpha sc c t hstart hd hascii hal

/-- The scan loop on a clean remainder: it completes at end of input and
appends lexemes spelling the remainder minus whitespace. -/
theorem clean_loop (fuel : Nat) :
    ∀ sc : Scanner,
      (∀ x ∈ sc.source, allowedChar x = true) →
      no_comment_at (sc.source.drop sc.current) = true →
      sc.source.length ≤ sc.current + fuel →
      ∃ scF, scan_loop fuel sc = some scF ∧
        scF.source = sc.source ∧ scF.is_at_end = true ∧
        concatLex scF.tokens =
          concatLex sc.tokens ++ (sc.source.drop sc.current).filter nonWs := by
  induction fuel with
  | zero =>
    intro sc hall hnc hfuel
    rw [scan_loop.eq_def,
      if_pos (by simp only [Scanner.is_at_end, decide_eq_true_eq]; omega)]
    refine ⟨sc, rfl, rfl,
      by simp only [Scanner.is_at_end, decide_eq_true_eq]; omega, ?_⟩
    rw [List.drop_of_length_le (by omega)]
    simp
  | succ n ih =>
    intro sc hall hnc hfuel
    by_cases hend : sc.is_at_end = true
    · rw [scan_loop.eq_def, if_pos hend]
      refine ⟨sc, rfl, rfl, hend, ?_⟩
      rw [Scanner.drop_of_at_end hend]
      simp
    · have hlt : sc.current < sc.source.length := by
        simp only [Scanner.is_at_end, decide_eq_true_eq,
          Bool.not_eq_true] at hend
        omega
      obtain ⟨c, t, hd⟩ : ∃ c t, sc.source.drop sc.current = c :: t := by
        rcases hdd : sc.source.drop sc.current with _ | ⟨c, t⟩
        · have := congrArg List.length hdd
          rw [List.length_drop] at this
          simp at this
          omega
        · exact ⟨c, t, rfl⟩
      obtain ⟨sc', hstep, hpost⟩ :=
        clean_step { sc with start := sc.current } c t rfl hd hall hnc
      obtain ⟨hsrc, hlt2, hle2, hcat4⟩ := hpost
      have hsrc' : sc'.source = sc.source := hsrc
      have hlt2' : sc.current < sc'.current := hlt2
      have hle2' : sc'.current ≤ sc.source.length := hle2
      have hcat4' : concatLex sc'.tokens = concatLex sc.tokens ++
          ((sc.source.drop sc.current).take (sc'.current - sc.current)).filter
            nonWs := hcat4
      have hdd2 : sc'.source.drop sc'.current =
          (sc.source.drop sc.current).drop (sc'.current - sc.current) := by
        rw [hsrc', List.drop_drop]
        congr 1
        omega
      have hdsp : sc.source.drop sc.current =
          (sc.source.drop sc.current).take (sc'.current - sc.current) ++
            sc'.source.drop sc'.current := by
        rw [hdd2, List.take_append_drop]
      have hnc' : no_comment_at (sc'.source.drop sc'.current) = true := by
        rw [hdd2]
        exact no_comment_drop hnc _
      have hfuel' : sc'.source.length ≤ sc'.current + n := by
        rw [hsrc']
        omega
      rw [scan_loop.eq_def, if_neg hend, if_neg (by omega)]
      rw [hstep]
      simp only []
      obtain ⟨scF, hloop, hsrcF, hendF, hcatF⟩ := ih sc'
        (fun x hx => hall x (hsrc' ▸ hx)) hnc' hfuel'
      refine ⟨scF, hloop, by rw [hsrcF, hsrc'], hendF, ?_⟩
      rw [hcatF, hcat4', List.append_assoc]
      congr 1
      rw [← List.filter_append]
      exact congrArg (List.filter nonWs) hdsp.symm

/-- C5: on every source made only of allowed characters (punctuation,
operators, digits, letters, underscore, whitespace — no quotes, no
invalid characters) containing no `//` or `/*` comment marker, scanning
completes and concatenating the lexemes of the emitted tokens (the EOF
lexeme being empty) reconstructs exactly the source with all whitespace
characters removed. -/
theorem C5_lexeme_reconstruction (cs : List Char)
    (hall : ∀ c ∈ cs, allowedChar c = true)
    (hnc : no_comment_at cs = true) :
    ∃ ts err, scan_tokens cs = some (ts, err) ∧
      concatLex ts = cs.filter nonWs := by
  obtain ⟨scF, hloop, hsrc, hend, hcat⟩ :=
    clean_loop (cs.length + 1) (Scanner.new cs) hall
      (by simpa [Scanner.new] using hnc)
      (by simp [Scanner.new])
  unfold scan_tokens
  rw [hloop]
  refine ⟨_, _, rfl, ?_⟩
  rw [concatLex_append]
  simpa [concatLex, Scanner.new] using hcat

/-- Witness for C5 on the input "var x=10;". -/
theorem C5_lexeme_reconstruction_witness :
    ∃ ts err, scan_tokens "var x=10;".data = some (ts, err) ∧
      concatLex ts = "var x=10;".data.filter nonWs :=
  C5_lexeme_reconstruction "var x=10;".data (by decide) (by decide)

end LoxScan
